import Mathlib

/-!
Verification of the core logic of `BatchParametricExport.py`, a Fusion batch
parametric export add-in.  The pure helpers (value-list parsing, filename
templating, template validation, Cartesian-product combination enumeration)
are embedded directly; the export driver (`ExecuteHandler.notify`) is embedded
as a state-passing function over an explicit design state, with the host's
cancellation flag and per-call export results supplied by an oracle.
-/

deriving instance DecidableEq for Except

namespace BatchExport

/-- The backslash character (written via its code point). -/
def bslash : Char := Char.ofNat 92

/-- The single-quote character (written via its code point). -/
def squote : Char := Char.ofNat 39

/-- Whitespace as stripped by Python's `str.strip()` (the Latin-1 whitespace
code points; the add-in's inputs contain no other whitespace). -/
def pyIsSpace (c : Char) : Bool :=
  c == ' ' || c == '\t' || c == '\n' || c == '\r' || c == Char.ofNat 11 ||
  c == Char.ofNat 12 || c == Char.ofNat 28 || c == Char.ofNat 29 ||
  c == Char.ofNat 30 || c == Char.ofNat 31 || c == Char.ofNat 133 ||
  c == Char.ofNat 160

/-- Drop leading and trailing whitespace from a character list. -/
def pyStripChars (l : List Char) : List Char :=
  ((l.dropWhile pyIsSpace).reverse.dropWhile pyIsSpace).reverse

/-- Models Python's `str.strip()` with no arguments. -/
def pyStrip (s : String) : String := ⟨pyStripChars s.data⟩

/-- Models `raw.split(';')`: split at every `';'`, keeping empty pieces;
the split of the empty string is `[""]`. -/
def splitSemisChars : List Char → List (List Char)
  | [] => [[]]
  | c :: cs =>
    if c = ';' then [] :: splitSemisChars cs
    else
      match splitSemisChars cs with
      | [] => [[c]]
      | p :: ps => (c :: p) :: ps

/-- `raw.split(';')` on strings. -/
def splitSemis (s : String) : List String := (splitSemisChars s.data).map String.mk

/-- Numeric value of a list of decimal digits. -/
def digVal (l : List Char) : Nat := l.foldl (fun a c => a * 10 + (c.toNat - 48)) 0

/-- Models Python's builtin `float(tok)` on its decimal forms: optional
surrounding whitespace, optional sign, digits with an optional fractional
part or a bare fractional part, and an optional decimal exponent.  The value
is kept exactly as a rational.  (The special forms `inf`/`infinity`/`nan`
and digit-group underscores, which `float` also accepts, do not occur in this
add-in's semicolon-separated numeric value lists and are not modelled.) -/
def pyFloat (s : String) : Option Rat :=
  let l0 := pyStripChars s.data
  let sgnNeg : Bool := l0.head? == some '-'
  let l1 := match l0 with
    | '+' :: r => r
    | '-' :: r => r
    | r => r
  let ip := l1.takeWhile Char.isDigit
  let r1 := l1.dropWhile Char.isDigit
  let mant : Option (Rat × List Char) :=
    match r1 with
    | '.' :: r2 =>
      let fp := r2.takeWhile Char.isDigit
      let r3 := r2.dropWhile Char.isDigit
      if ip.isEmpty && fp.isEmpty then none
      else some ((digVal ip : Rat) + (digVal fp : Rat) / ((10 : Rat) ^ fp.length), r3)
    | _ => if ip.isEmpty then none else some ((digVal ip : Rat), r1)
  match mant with
  | none => none
  | some (m, rest) =>
    let signed := if sgnNeg then -m else m
    match rest with
    | [] => some signed
    | e :: r4 =>
      if e == 'e' || e == 'E' then
        let eNeg : Bool := r4.head? == some '-'
        let r5 := match r4 with
          | '+' :: r => r
          | '-' :: r => r
          | r => r
        let ed := r5.takeWhile Char.isDigit
        let r6 := r5.dropWhile Char.isDigit
        if ed.isEmpty || !r6.isEmpty then none
        else some (if eNeg then signed / ((10 : Rat) ^ digVal ed)
                   else signed * ((10 : Rat) ^ digVal ed))
      else none

/-- Whether an `Except` result is a success. -/
def exceptOk {ε α : Type} : Except ε α → Bool
  | Except.ok _ => true
  | Except.error _ => false

/-- The token loop shared by both value-list parsers of the source: iterate
over the already-stripped tokens, skip empty tokens, and raise (here: return
`Except.error`) on the first token the element parser rejects. -/
def parseToks {α : Type} (f : String → Option α) (err : String) :
    List String → Except String (List α)
  | [] => Except.ok []
  | t :: ts =>
    if t = "" then parseToks f err ts
    else
      match f t with
      | none => Except.error err
      | some v =>
        match parseToks f err ts with
        | Except.error e => Except.error e
        | Except.ok vs => Except.ok (v :: vs)

/-- Models `_parse_values_list`: raise on empty input, split on `';'`, strip
each token, ignore empty tokens, parse each remaining token as a float, and
raise if no values remain. -/
def _parse_values_list (raw : String) : Except String (List Rat) :=
  if raw = "" then Except.error "empty"
  else
    match parseToks pyFloat "could not convert string to float" ((splitSemis raw).map pyStrip) with
    | Except.error e => Except.error e
    | Except.ok vs => if vs.isEmpty then Except.error "no numbers" else Except.ok vs

/-- The state of the quote-aware splitting loop of `_parse_text_values_list`:
the parts emitted so far, the current part, the in-quotes flag, and the
previously consumed character (`raw[i-1]`, `none` at `i == 0`). -/
structure SplitSt where
  parts : List String
  cur : List Char
  inQ : Bool
  prev : Option Char
deriving DecidableEq

/-- One iteration of the splitting loop of `_parse_text_values_list`: an
unescaped single quote (at position 0 or not preceded by a backslash) toggles
the in-quotes flag and is kept; a `';'` outside quotes ends the current part;
every other character (including an escaped quote) is kept as-is. -/
def splitStep (st : SplitSt) (c : Char) : SplitSt :=
  if c = squote ∧ (st.prev = none ∨ st.prev ≠ some bslash) then
    { st with inQ := !st.inQ, cur := st.cur ++ [c], prev := some c }
  else if c = ';' ∧ st.inQ = false then
    { parts := st.parts ++ [String.mk st.cur], cur := [], inQ := st.inQ, prev := some c }
  else
    { st with cur := st.cur ++ [c], prev := some c }

/-- The quote-aware split of `_parse_text_values_list`: run the loop over the
characters and append the final current part if it is non-empty. -/
def splitOutsideQuotes (raw : String) : List String :=
  let fin := raw.data.foldl splitStep ⟨[], [], false, none⟩
  fin.parts ++ (if fin.cur ≠ [] then [String.mk fin.cur] else [])

/-- Models `_TEXT_LITERAL_RE`, the single-quoted literal form
`^\s*'([^']*)'\s*$`: surrounding whitespace, then a single-quoted span with
no quote inside; the match result is the span without the quotes. -/
def matchTextLiteral (s : String) : Option String :=
  let l := pyStripChars s.data
  if decide (2 ≤ l.length) && l.head? == some squote && l.getLast? == some squote
      && (l.drop 1).dropLast.all (fun c => c != squote) then
    some ⟨(l.drop 1).dropLast⟩
  else none

/-- Models `_parse_text_values_list`: raise on empty input, split on `';'`
outside single-quote spans, strip each part, ignore empty parts, require each
remaining part to match the quoted-literal form (keeping the unwrapped
value), and raise if no values remain. -/
def _parse_text_values_list (raw : String) : Except String (List String) :=
  if raw = "" then Except.error "empty"
  else
    match parseToks matchTextLiteral "bad text token" ((splitOutsideQuotes raw).map pyStrip) with
    | Except.error e => Except.error e
    | Except.ok vs => if vs.isEmpty then Except.error "no text values" else Except.ok vs

/-- Does `pat` occur at the start of the character list? -/
def startsW : List Char → List Char → Bool
  | _, [] => true
  | [], _ :: _ => false
  | c :: cs, p :: ps => c == p && startsW cs ps

/-- Does `pat` occur contiguously anywhere in the character list?  This is
Python's `pat in s` membership test on strings. -/
def hasSub (pat : List Char) : List Char → Bool
  | [] => pat.isEmpty
  | c :: t => startsW (c :: t) pat || hasSub pat t

/-- Python's `pat in hay` substring test on strings. -/
def hasSubstr (hay pat : String) : Bool := hasSub pat.data hay.data

/-- Replace every (leftmost-first, non-overlapping) occurrence of `pat` by
`rep`, as Python's `str.replace` does for non-empty patterns; every pattern
the source passes is a brace-delimited placeholder and hence non-empty.  The
fuel argument makes the recursion structural; each step consumes at least
one character, so fuel equal to the list length (as supplied by
`replaceAll`) never runs out. -/
def replaceAllF (pat rep : List Char) : Nat → List Char → List Char
  | _, [] => []
  | 0, l => l
  | fuel + 1, c :: cs =>
    if !pat.isEmpty && startsW (c :: cs) pat then
      rep ++ replaceAllF pat rep fuel (cs.drop (pat.length - 1))
    else
      c :: replaceAllF pat rep fuel cs

/-- Replace every occurrence of `pat` by `rep` in a character list. -/
def replaceAll (pat rep l : List Char) : List Char := replaceAllF pat rep l.length l

/-- Python's `s.replace(pat, rep)`. -/
def pyReplace (s pat rep : String) : String := ⟨replaceAll pat.data rep.data s.data⟩

/-- The characters removed by `_sanitize_filename_component`. -/
def illegalFilenameChars : List Char :=
  [bslash, '/', ':', '*', '?', '"', '<', '>', '|', '\n', '\r', '\t']

/-- Models `_sanitize_filename_component`: remove characters illegal on
common filesystems, then `str.strip()` the result. -/
def _sanitize_filename_component (s : String) : String :=
  pyStrip ⟨s.data.filter (fun c => !illegalFilenameChars.contains c)⟩

/-- A Python runtime value appearing in a parameter-value map: a float from
the numeric value-list parser or a string from the text value-list parser. -/
inductive PyVal
  | num (q : Rat)
  | str (s : String)
deriving DecidableEq

/-- `_sanitize_filename_component(val)` as invoked by `_build_filename` on a
raw parameter value: the sanitizer iterates over `val` character by
character, which succeeds only for strings — for a float Python raises
`TypeError: 'float' object is not iterable` (modelled as `none`).  The
f-string conversion in `_build_filename` wraps only the sanitizer's result;
it does not convert the value before the call. -/
def sanitizePyVal : PyVal → Option String
  | PyVal.str s => some (_sanitize_filename_component s)
  | PyVal.num _ => none

/-- The placeholder `f'{{{p}}}'` built for a parameter name. -/
def placeholder (p : String) : String := "\x7b" ++ p ++ "\x7d"

/-- The substitution loop of `_build_filename` over the parameter-value map:
substitute each parameter's placeholder with the sanitized string form of its
value, propagating the `TypeError` the sanitizer raises on a float value. -/
def buildSubst : List (String × PyVal) → String → Option String
  | [], out => some out
  | (p, v) :: rest, out =>
    match sanitizePyVal v with
    | none => none
    | some s => buildSubst rest (pyReplace out (placeholder p) s)

/-- Models `_build_filename`: sanitize the object's display name, substitute
the literal `{name}` placeholder, then substitute every parameter
placeholder. -/
def _build_filename (template objName : String) (pvs : List (String × PyVal)) : Option String :=
  buildSubst pvs (pyReplace template "{name}" (_sanitize_filename_component objName))

/-- Models `', '.join(...)`. -/
def joinCommaSep : List String → String
  | [] => ""
  | [s] => s
  | s :: r :: rest => s ++ ", " ++ joinCommaSep (r :: rest)

/-- Models `_validate_filename_template`: fail on an empty template, fail
when `{name}` is absent, fail listing every selected parameter whose
placeholder is absent, and otherwise succeed.  The trailing-extension check
in the source has a `pass` body and therefore no effect, so the format
extension argument is unused. -/
def _validate_filename_template (template : String) (selectedParamNames : List String)
    (fmtExt : String) : Bool × String :=
  if template = "" then (false, "Filename template is empty.")
  else if !hasSubstr template "{name}" then
    (false, "Filename template must include {name}.")
  else if !(selectedParamNames.filter (fun p => !hasSubstr template (placeholder p))).isEmpty then
    (false, "Filename template is missing placeholders: "
      ++ joinCommaSep ((selectedParamNames.filter
            (fun p => !hasSubstr template (placeholder p))).map placeholder))
  else (true, "")

/-- Models `list(itertools.product(*ordered_lists))`: the fully materialized
Cartesian product, the last list varying fastest. -/
def allCombos {α : Type} : List (List α) → List (List α)
  | [] => [[]]
  | l :: ls => l.flatMap (fun x => (allCombos ls).map (fun c => x :: c))

/-! ## The export driver (`ExecuteHandler.notify`)

The host document is modelled explicitly: user parameters (name, expression
string, unit, value-type tag), root bodies and sub-assembly occurrences
(entity token with visibility flag).  The host's progress-dialog cancel flag
and the per-call export results are supplied by an `Oracle` indexed by the
progress step; everything else is deterministic.  A trace of events records
the calls the driver makes. -/

/-- A user parameter as seen through the host API: `name`, `expression`,
`unit`, and `valueType` (`1` is text, as the source compares). -/
structure UParam where
  name : String
  expression : String
  unit : String
  valueType : Nat
deriving DecidableEq

/-- The mutable document state the driver touches: user parameters, root
bodies and occurrences, the latter two as (entityToken, visibility) pairs. -/
structure Design where
  params : List UParam
  bodies : List (String × Bool)
  occs : List (String × Bool)
deriving DecidableEq

/-- Association-list lookup by first component (a Python dict read). -/
def alookup {β : Type} : List (String × β) → String → Option β
  | [], _ => none
  | (k, v) :: r, n => if k = n then some v else alookup r n

/-- `design.userParameters.itemByName(n)`. -/
def itemByName (ps : List UParam) (n : String) : Option UParam :=
  ps.find? (fun p => p.name == n)

/-- Set the expression of the parameter named `n` (`up.expression = e` /
`up.textValue = e` through the host, which stores the literal back into the
parameter's expression). -/
def setParamExpr (ps : List UParam) (n e : String) : List UParam :=
  ps.map (fun p => if p.name = n then { p with expression := e } else p)

/-- The expression of the parameter named `n`, if present. -/
def paramExprOf (ps : List UParam) (n : String) : Option String :=
  (itemByName ps n).map UParam.expression

/-- Events recorded while the driver runs. -/
inductive Ev
  | setParamEv (name expr : String)
  | computeEv
  | progressEv (step : Nat)
  | isolateEv
  | exportEv (step : Nat) (path : String)
  | restoreVisEv
  | restoreParamsEv
  | progressEndEv
deriving DecidableEq

/-- The driver's running state: the design, the `orig_param_expr` originals
cache, and the event trace. -/
structure RunState where
  design : Design
  cache : List (String × String)
  trace : List Ev
deriving DecidableEq

/-- Append one event to the trace. -/
def addEv (st : RunState) (e : Ev) : RunState := { st with trace := st.trace ++ [e] }

/-- Models Python's `str()` of a float for the exact-decimal values produced
by the numeric value-list parser: the shortest decimal form, `.0` appended
for integral values.  (Python prints the shortest repr of the double; for the
decimal inputs this add-in parses that is the decimal form itself.)  Only
used to render expressions the driver later restores; no claim depends on the
exact text. -/
def pyNumStr (q : Rat) : String :=
  match (List.range 40).find? (fun k => (10 ^ k) % q.den == 0) with
  | some k =>
    let m := q.num.natAbs * ((10 ^ k) / q.den)
    let ipart := toString (m / 10 ^ k)
    let fdigits := toString (m % 10 ^ k)
    let fpart := ⟨List.replicate (k - (Nat.digits 10 (m % 10 ^ k)).length) '0'⟩ ++ fdigits
    (if q.num < 0 then "-" else "") ++ ipart ++ "." ++ (if k = 0 then "0" else fpart)
  | none => toString q

/-- The f-string rendering `str(val)` of a parameter value. -/
def pyValStr : PyVal → String
  | PyVal.num q => pyNumStr q
  | PyVal.str s => s

/-- `pval.strip()` as applied to a text parameter's value; the text value-list
parser only produces strings here (a float would raise in the source). -/
def pyValStrip : PyVal → String
  | PyVal.num q => pyNumStr q
  | PyVal.str s => pyStrip s

/-- The expression written into a parameter for one combination value: a text
parameter gets the single-quoted stripped literal `f"'{pval.strip()}'"`, a
numeric parameter gets `f'{pval} {unit}'.strip()` with the parameter's own
(stripped) unit reattached. -/
def newExprFor (up : UParam) (pval : PyVal) : String :=
  if up.valueType = 1 then
    String.mk [squote] ++ pyValStrip pval ++ String.mk [squote]
  else
    pyStrip (pyValStr pval ++ " " ++ pyStrip up.unit)

/-- One iteration of `_set_user_params`: look the parameter up by name (skip
if absent), cache its original expression if not already cached, then write
the combination's value. -/
def setOneParam (st : RunState) (pname : String) (pval : PyVal) : RunState :=
  match itemByName st.design.params pname with
  | none => st
  | some up =>
    { design := { st.design with
        params := setParamExpr st.design.params pname (newExprFor up pval) },
      cache :=
        if (alookup st.cache pname).isSome then st.cache
        else st.cache ++ [(pname, up.expression)],
      trace := st.trace ++ [Ev.setParamEv pname (newExprFor up pval)] }

/-- Models `_set_user_params`: iterate `zip(ordered_names, values_tuple)`,
caching originals and writing values. -/
def _set_user_params (st : RunState) (orderedNames : List String) (combo : List PyVal) : RunState :=
  (orderedNames.zip combo).foldl (fun s pv => setOneParam s pv.1 pv.2) st

/-- Models `_restore_user_params`: write every cached original expression
back (skipping parameters that no longer resolve). -/
def _restore_user_params (st : RunState) : RunState :=
  { st with
    design := { st.design with
      params := st.cache.foldl
        (fun ps ce => if (itemByName ps ce.1).isSome then setParamExpr ps ce.1 ce.2 else ps)
        st.design.params },
    trace := st.trace ++ [Ev.restoreParamsEv] }

/-- Models `_snapshot_visibility`: the (entityToken, visibility) maps of all
root bodies and occurrences. -/
def _snapshot_visibility (d : Design) : List (String × Bool) × List (String × Bool) :=
  (d.bodies, d.occs)

/-- Write back a visibility snapshot over the current entity list, defaulting
to visible for an entity missing from the snapshot. -/
def restoreVisList (cur snap : List (String × Bool)) : List (String × Bool) :=
  cur.map (fun tb => (tb.1, (alookup snap tb.1).getD true))

/-- Models `_restore_visibility`. -/
def _restore_visibility (st : RunState) (snapB snapO : List (String × Bool)) : RunState :=
  { st with
    design := { st.design with
      bodies := restoreVisList st.design.bodies snapB,
      occs := restoreVisList st.design.occs snapO },
    trace := st.trace ++ [Ev.restoreVisEv] }

/-- Set the visibility flag of one entity token. -/
def setVisList (l : List (String × Bool)) (token : String) (v : Bool) : List (String × Bool) :=
  l.map (fun tb => if tb.1 = token then (tb.1, v) else tb)

/-- Set every entity's visibility flag. -/
def setAllVis (l : List (String × Bool)) (v : Bool) : List (String × Bool) :=
  l.map (fun tb => (tb.1, v))

/-- An exportable object: body or component (occurrence), its entity token,
the owning occurrence for a body (`assemblyContext`, `none` in root), and the
display name used for filenames. -/
inductive ObjKind
  | body
  | component
deriving DecidableEq

/-- A selected exportable object. -/
structure ExpObj where
  kind : ObjKind
  token : String
  parentOcc : Option String
  name : String
deriving DecidableEq

/-- Models `_isolate_for_step`: hide all occurrences, then show only the
target's ownership chain (for a body, also hide all bodies and show only the
target body). -/
def _isolate_for_step (st : RunState) (obj : ExpObj) : RunState :=
  match obj.kind with
  | ObjKind.component =>
    { st with
      design := { st.design with
        occs := setVisList (setAllVis st.design.occs false) obj.token true },
      trace := st.trace ++ [Ev.isolateEv] }
  | ObjKind.body =>
    { st with
      design := { st.design with
        occs :=
          match obj.parentOcc with
          | some t => setVisList (setAllVis st.design.occs false) t true
          | none => setAllVis st.design.occs false,
        bodies := setVisList (setAllVis st.design.bodies false) obj.token true },
      trace := st.trace ++ [Ev.isolateEv] }

/-- The export format selected in the dialog. -/
inductive ExportFormat
  | STEP
  | STL
  | OBJ
  | threeMF
deriving DecidableEq

/-- The host-supplied outcomes the driver reacts to, indexed by the progress
step: whether the cancel button was observed pressed at that step's poll, and
whether the export call of that step reports success. -/
structure Oracle where
  cancelAt : Nat → Bool
  exportOk : Nat → Bool

/-- How the export loop terminated, when it did not complete: operator
cancellation (`KeyboardInterrupt`), a failed export call (`RuntimeError`), or
the `TypeError` that `_build_filename` raises on a float parameter value. -/
inductive Failure
  | cancelled
  | exportFailed (path : String)
  | typeError
deriving DecidableEq

/-- The overall outcome of one `ExecuteHandler.notify` run. -/
inductive Outcome
  | success
  | cancelled
  | exportFailed (path : String)
  | typeError
deriving DecidableEq

/-- The inner per-object loop of the export driver, for one combination:
build the filename (a float value raises `TypeError` here), bump the step,
report progress, poll cancellation, then export — a STEP export isolates the
object, exports the whole document and restores visibility; a mesh export
targets the entity directly.  A failed export aborts with `RuntimeError`. -/
def runObjects (orc : Oracle) (fmt : ExportFormat) (template outDir : String)
    (snapB snapO : List (String × Bool)) (pvMap : List (String × PyVal)) :
    List ExpObj → RunState → Nat → RunState × Nat × Option Failure
  | [], st, step => (st, step, none)
  | obj :: rest, st, step =>
    match _build_filename template obj.name pvMap with
    | none => (st, step, some Failure.typeError)
    | some fname =>
      if orc.cancelAt (step + 1) then
        (addEv st (Ev.progressEv (step + 1)), step + 1, some Failure.cancelled)
      else if fmt = ExportFormat.STEP then
        if orc.exportOk (step + 1) then
          runObjects orc fmt template outDir snapB snapO pvMap rest
            (_restore_visibility
              (addEv (_isolate_for_step (addEv st (Ev.progressEv (step + 1))) obj)
                (Ev.exportEv (step + 1) (outDir ++ "/" ++ fname)))
              snapB snapO)
            (step + 1)
        else
          (_restore_visibility
            (addEv (_isolate_for_step (addEv st (Ev.progressEv (step + 1))) obj)
              (Ev.exportEv (step + 1) (outDir ++ "/" ++ fname)))
            snapB snapO,
           step + 1, some (Failure.exportFailed (outDir ++ "/" ++ fname)))
      else
        if orc.exportOk (step + 1) then
          runObjects orc fmt template outDir snapB snapO pvMap rest
            (addEv (addEv st (Ev.progressEv (step + 1)))
              (Ev.exportEv (step + 1) (outDir ++ "/" ++ fname)))
            (step + 1)
        else
          (addEv (addEv st (Ev.progressEv (step + 1)))
            (Ev.exportEv (step + 1) (outDir ++ "/" ++ fname)),
           step + 1, some (Failure.exportFailed (outDir ++ "/" ++ fname)))

/-- The outer per-combination loop of the export driver: write the
combination into the user parameters, recompute once, then run the
per-object loop; any failure aborts the remaining combinations. -/
def runCombos (orc : Oracle) (fmt : ExportFormat) (template outDir : String)
    (snapB snapO : List (String × Bool)) (objs : List ExpObj) (names : List String) :
    List (List PyVal) → RunState → Nat → RunState × Nat × Option Failure
  | [], st, step => (st, step, none)
  | combo :: rest, st, step =>
    let r := runObjects orc fmt template outDir snapB snapO (names.zip combo) objs
      (addEv (_set_user_params st names combo) Ev.computeEv) step
    match r.2.2 with
    | none => runCombos orc fmt template outDir snapB snapO objs names rest r.1 r.2.1
    | some f => (r.1, r.2.1, some f)

/-- Models `ExecuteHandler.notify` from the visibility snapshot onward:
materialize all combinations, run the loop inside `try`, and in the `finally`
block release the progress dialog, restore every cached parameter expression,
restore the visibility snapshot, and force one more recompute — on success,
cancellation (`KeyboardInterrupt`), export failure (`RuntimeError`) and
`TypeError` alike. -/
def executeNotify (d0 : Design) (objects : List ExpObj)
    (paramLists : List (String × List PyVal)) (fmt : ExportFormat)
    (template outDir : String) (orc : Oracle) : RunState × Outcome :=
  let names := paramLists.map Prod.fst
  let snaps := _snapshot_visibility d0
  let combos := allCombos (paramLists.map Prod.snd)
  let st0 : RunState := ⟨d0, [], []⟩
  let r := runCombos orc fmt template outDir snaps.1 snaps.2 objects names combos st0 0
  let st1 := addEv r.1 Ev.progressEndEv
  let st2 := _restore_user_params st1
  let st3 := _restore_visibility st2 snaps.1 snaps.2
  let st4 := addEv st3 Ev.computeEv
  let oc := match r.2.2 with
    | none => Outcome.success
    | some Failure.cancelled => Outcome.cancelled
    | some (Failure.exportFailed p) => Outcome.exportFailed p
    | some Failure.typeError => Outcome.typeError
  (st4, oc)

/-- The steps at which progress was reported, in trace order. -/
def progressSteps (tr : List Ev) : List Nat :=
  tr.filterMap (fun e => match e with | Ev.progressEv s => some s | _ => none)

/-- No leading or trailing whitespace. -/
def noEdgeWS (s : String) : Bool :=
  !(s.data.head?.any pyIsSpace) && !(s.data.getLast?.any pyIsSpace)

/-- The non-empty stripped tokens of a numeric value list. -/
def numTokens (raw : String) : List String :=
  ((splitSemis raw).map pyStrip).filter (fun t => t != "")

/-- The non-empty stripped parts of a text value list. -/
def textTokens (raw : String) : List String :=
  ((splitOutsideQuotes raw).map pyStrip).filter (fun t => t != "")

/-- The loop invariant of the export driver relative to the pre-run design:
parameter names are unchanged, a parameter absent from the originals cache
still has its pre-run expression, every cache entry holds the parameter's
pre-run expression, cache keys are distinct, and the entity-token sequences
of bodies and occurrences are unchanged. -/
def LInv (d0 : Design) (st : RunState) : Prop :=
  st.design.params.map UParam.name = d0.params.map UParam.name
  ∧ (∀ n, alookup st.cache n = none →
      paramExprOf st.design.params n = paramExprOf d0.params n)
  ∧ (∀ n e, alookup st.cache n = some e → paramExprOf d0.params n = some e)
  ∧ (st.cache.map Prod.fst).Nodup
  ∧ st.design.bodies.map Prod.fst = d0.bodies.map Prod.fst
  ∧ st.design.occs.map Prod.fst = d0.occs.map Prod.fst

/-- An event the export loop itself can emit: anything except the two events
that only the `finally` restoration block emits. -/
def loopEv (e : Ev) : Prop := e ≠ Ev.progressEndEv ∧ e ≠ Ev.restoreParamsEv

/-- The cancel flag was observed unset at every progress step up to `k`. -/
def noCancelThrough (orc : Oracle) (k : Nat) : Prop :=
  ∀ t, 1 ≤ t → t ≤ k → orc.cancelAt t = false

/-- Every export call recorded in the trace happened with the cancel flag
observed unset at its own step and at every earlier step. -/
def exportsCancelFree (orc : Oracle) (tr : List Ev) : Prop :=
  ∀ s p, Ev.exportEv s p ∈ tr → noCancelThrough orc s

/-- `st'` extends `st` by loop-internal events only: no progress reports, no
export calls, and none of the events reserved to the restoration block. -/
def TraceExt (st st' : RunState) : Prop :=
  ∃ ext, st'.trace = st.trace ++ ext ∧ progressSteps ext = []
    ∧ (∀ e ∈ ext, loopEv e) ∧ (∀ s p, Ev.exportEv s p ∉ ext)

/-! ## Helper lemmas -/

theorem pyIsSpace_head_dropWhile (l : List Char) (c : Char)
    (h : (l.dropWhile pyIsSpace).head? = some c) : pyIsSpace c = false := by
  induction l with
  | nil => simp at h
  | cons a t ih =>
    rw [List.dropWhile_cons] at h
    by_cases ha : pyIsSpace a = true
    · rw [if_pos ha] at h
      exact ih h
    · rw [if_neg ha, List.head?_cons] at h
      injection h with h
      subst h
      simpa using ha

theorem getLast?_dropWhile_of_ne_nil (p : Char → Bool) (l : List Char)
    (h : l.dropWhile p ≠ []) : (l.dropWhile p).getLast? = l.getLast? := by
  induction l with
  | nil => simp at h
  | cons a t ih =>
    rw [List.dropWhile_cons] at h ⊢
    by_cases ha : p a = true
    · rw [if_pos ha] at h ⊢
      have ht : t ≠ [] := by
        intro e
        rw [e] at h
        simp at h
      rw [ih h]
      cases t with
      | nil => exact absurd rfl ht
      | cons b t' => rw [List.getLast?_cons_cons]
    · rw [if_neg ha]

theorem noEdgeWS_pyStripChars (l : List Char) : noEdgeWS ⟨pyStripChars l⟩ = true := by
  rw [noEdgeWS]
  show (!(pyStripChars l).head?.any pyIsSpace && !(pyStripChars l).getLast?.any pyIsSpace) = true
  rw [Bool.and_eq_true]
  rw [pyStripChars]
  constructor
  · rw [List.head?_reverse]
    by_cases hX : (l.dropWhile pyIsSpace).reverse.dropWhile pyIsSpace = []
    · rw [hX]
      rfl
    · rw [getLast?_dropWhile_of_ne_nil _ _ hX, List.getLast?_reverse]
      cases hh : (l.dropWhile pyIsSpace).head? with
      | none => rfl
      | some c =>
        have := pyIsSpace_head_dropWhile l c hh
        simp [Option.any, this]
  · rw [List.getLast?_reverse]
    cases hh : ((l.dropWhile pyIsSpace).reverse.dropWhile pyIsSpace).head? with
    | none => rfl
    | some c =>
      have := pyIsSpace_head_dropWhile (l.dropWhile pyIsSpace).reverse c hh
      simp [Option.any, this]

theorem isEmpty_eq_of_length_eq {α β : Type} (l : List α) (m : List β)
    (h : l.length = m.length) : l.isEmpty = m.isEmpty := by
  cases l <;> cases m <;> simp_all

theorem exceptOk_parseToks {α : Type} (f : String → Option α) (err : String)
    (ts : List String) :
    exceptOk (parseToks f err ts)
      = (ts.filter (fun t => t != "")).all (fun t => (f t).isSome) := by
  induction ts with
  | nil => rfl
  | cons t ts ih =>
    by_cases ht : t = ""
    · subst ht
      rw [parseToks, if_pos rfl, ih]
      simp [List.filter_cons]
    · rw [parseToks, if_neg ht, List.filter_cons]
      have hbe : (t != "") = true := by simp [ht]
      rw [if_pos hbe]
      cases hf : f t with
      | none => simp [exceptOk, hf]
      | some v =>
        cases hr : parseToks f err ts with
        | error e =>
          rw [hr] at ih
          simp [exceptOk, hf, List.all_cons, ← ih]
        | ok vs =>
          rw [hr] at ih
          simp [exceptOk, hf, List.all_cons, ← ih]

theorem length_parseToks {α : Type} (f : String → Option α) (err : String)
    (ts : List String) (vs : List α) (h : parseToks f err ts = Except.ok vs) :
    vs.length = (ts.filter (fun t => t != "")).length := by
  induction ts generalizing vs with
  | nil =>
    rw [parseToks] at h
    injection h with h
    subst h
    rfl
  | cons t ts ih =>
    by_cases ht : t = ""
    · subst ht
      rw [parseToks, if_pos rfl] at h
      rw [ih vs h]
      simp [List.filter_cons]
    · rw [parseToks, if_neg ht] at h
      have hbe : (t != "") = true := by simp [ht]
      cases hf : f t with
      | none =>
        rw [hf] at h
        cases h
      | some v =>
        rw [hf] at h
        cases hr : parseToks f err ts with
        | error e =>
          rw [hr] at h
          cases h
        | ok ws =>
          rw [hr] at h
          injection h with h
          subst h
          rw [List.filter_cons, if_pos hbe]
          simp [ih ws hr]

/-! ## Claims about the pure helpers -/

/-- C2 counterexample: `buildFilename("{name}_{width}.obj", "Part A",
{"width": 12.0})` does not return `"Part_A_12.0.obj"`: the source passes the
float to the character-filtering sanitizer before any string conversion, so
the call raises `TypeError: 'float' object is not iterable` instead of
returning a string. -/
theorem C2_counterexample :
    _build_filename "{name}_{width}.obj" "Part A" [("width", PyVal.num 12)]
      ≠ some "Part_A_12.0.obj" := by decide

/-- C2 amended: on a float parameter value `_build_filename` raises
`TypeError` (the sanitizer iterates over the raw value; the f-string
conversion happens only after it returns), and with the value pre-rendered as
the string "12.0" it returns "Part A_12.0.obj" — the space of "Part A" is
preserved, since the space is not among the removed illegal characters. -/
theorem C2_amended :
    _build_filename "{name}_{width}.obj" "Part A" [("width", PyVal.num 12)] = none
    ∧ _build_filename "{name}_{width}.obj" "Part A" [("width", PyVal.str "12.0")]
        = some "Part A_12.0.obj" :=
  ⟨by decide, by decide⟩

/-- C3: the combination engine materializes the full Cartesian product: on
`width=[10,20]`, `height=[1,2,3]` it yields exactly the six tuples
`(10,1),(10,2),(10,3),(20,1),(20,2),(20,3)` in that order (last parameter
varying fastest); in general the number of combinations is the product of
the list lengths (so duplicates are not removed), and every combination has
one scalar per parameter in declared order. -/
theorem C3_cartesian_product :
    allCombos [[(10 : Rat), 20], [1, 2, 3]]
        = [[10, 1], [10, 2], [10, 3], [20, 1], [20, 2], [20, 3]]
    ∧ (∀ (α : Type) (ls : List (List α)),
        (allCombos ls).length = (ls.map List.length).prod)
    ∧ (∀ (α : Type) (ls : List (List α)) (c : List α),
        c ∈ allCombos ls → c.length = ls.length) := by
  refine ⟨by with_unfolding_all decide, ?_, ?_⟩
  · intro α ls
    induction ls with
    | nil => rfl
    | cons l ls ih =>
      rw [allCombos, List.length_flatMap]
      have hmap : List.map (List.length ∘ fun x => List.map (fun c => x :: c) (allCombos ls)) l
          = List.replicate l.length ((ls.map List.length).prod) := by
        simp [Function.comp_def, ih, List.map_const']
      rw [hmap, List.sum_replicate, smul_eq_mul]
      simp [Nat.mul_comm]
  · intro α ls
    induction ls with
    | nil =>
      intro c hc
      rw [allCombos] at hc
      simp at hc
      simp [hc]
    | cons l ls ih =>
      intro c hc
      rw [allCombos] at hc
      rw [List.mem_flatMap] at hc
      obtain ⟨a, -, hc⟩ := hc
      rw [List.mem_map] at hc
      obtain ⟨c', hc', rfl⟩ := hc
      simp [ih c' hc']

/-- C3 witness: the theorem instantiated at the concrete product of the
claim, for the first emitted tuple. -/
theorem C3_witness : [(10 : Rat), 1].length = 2 :=
  C3_cartesian_product.2.2 Rat [[(10 : Rat), 20], [1, 2, 3]] [(10 : Rat), 1]
    (by with_unfolding_all decide)

/-- C9: in the text value-list splitting loop, a single quote immediately
preceded by a backslash does not toggle the in-quotes state, while an
unescaped quote (at position 0, where there is no previous character, or not
preceded by a backslash) does toggle it; consequently `"'a\';'b'"` stays one
part (the `';'` after the escaped quote is inside quotes) whereas
`"'a';'b'"` splits in two. -/
theorem C9_escaped_quote :
    (∀ st : SplitSt, st.prev = some bslash → (splitStep st squote).inQ = st.inQ)
    ∧ (∀ st : SplitSt, st.prev = none ∨ st.prev ≠ some bslash →
        (splitStep st squote).inQ = !st.inQ)
    ∧ splitOutsideQuotes "'a\\';'b'" = ["'a\\';'b'"]
    ∧ splitOutsideQuotes "'a';'b'" = ["'a'", "'b'"] := by
  refine ⟨?_, ?_, by decide, by decide⟩
  · intro st h
    have h1 : ¬(squote = squote ∧ (st.prev = none ∨ st.prev ≠ some bslash)) := by
      rintro ⟨-, h2 | h3⟩
      · rw [h] at h2
        cases h2
      · exact h3 h
    have h2 : ¬(squote = ';' ∧ st.inQ = false) := by
      rintro ⟨hc, -⟩
      exact absurd hc (by decide)
    rw [splitStep, if_neg h1, if_neg h2]
  · intro st h
    rw [splitStep, if_pos ⟨rfl, h⟩]

/-- C9 witness: the theorem applied at concrete loop states — after a
backslash the quote leaves the in-quotes flag unchanged; after a semicolon it
toggles it. -/
theorem C9_witness :
    (splitStep ⟨[], [], false, some bslash⟩ squote).inQ = false
    ∧ (splitStep ⟨[], [], false, some ';'⟩ squote).inQ = true :=
  ⟨C9_escaped_quote.1 ⟨[], [], false, some bslash⟩ rfl,
   C9_escaped_quote.2.1 ⟨[], [], false, some ';'⟩ (Or.inr (by decide))⟩

/-- C10: the filename sanitizer also strips leading and trailing whitespace
from its result, for every input; hence every substitution `_build_filename`
performs (the `{name}` substitution and every successful parameter
substitution) inserts a value with no leading or trailing whitespace. -/
theorem C10_sanitizer_strips (s : String) (v : PyVal) :
    noEdgeWS (_sanitize_filename_component s) = true
    ∧ Option.all noEdgeWS (sanitizePyVal v) = true := by
  constructor
  · rw [_sanitize_filename_component, pyStrip]
    exact noEdgeWS_pyStripChars _
  · cases v with
    | num q => rfl
    | str s' =>
      show noEdgeWS (_sanitize_filename_component s') = true
      rw [_sanitize_filename_component, pyStrip]
      exact noEdgeWS_pyStripChars _

/-- C4: the numeric value-list parser returns exactly `[1.0, 5.5, 12.0]` for
`"1; 5.5; 12"`, fails on `""` and on `"a;b"`, and in general succeeds exactly
when, after splitting on `';'`, trimming and dropping empty tokens, at least
one token remains and every remaining token parses as a float — so it fails
(with an error, not a silent empty result) whenever zero valid tokens remain
or some non-empty token does not parse. -/
theorem C4_numeric_value_list :
    _parse_values_list "1; 5.5; 12" = Except.ok [1, 5.5, 12]
    ∧ exceptOk (_parse_values_list "") = false
    ∧ exceptOk (_parse_values_list "a;b") = false
    ∧ ∀ raw : String,
        exceptOk (_parse_values_list raw)
          = (!(numTokens raw).isEmpty
              && (numTokens raw).all (fun t => (pyFloat t).isSome)) := by
  refine ⟨by with_unfolding_all decide, by decide, by with_unfolding_all decide, ?_⟩
  intro raw
  simp only [numTokens]
  by_cases h0 : raw = ""
  · subst h0
    decide
  · rw [_parse_values_list, if_neg h0]
    cases hr : parseToks pyFloat "could not convert string to float"
        ((splitSemis raw).map pyStrip) with
    | error e =>
      have hall := exceptOk_parseToks pyFloat "could not convert string to float"
        ((splitSemis raw).map pyStrip)
      rw [hr] at hall
      rw [← hall]
      simp [exceptOk]
    | ok vs =>
      have hall := exceptOk_parseToks pyFloat "could not convert string to float"
        ((splitSemis raw).map pyStrip)
      rw [hr] at hall
      have hemp := isEmpty_eq_of_length_eq _ _
        (length_parseToks pyFloat "could not convert string to float" _ vs hr)
      rw [← hall, ← hemp]
      cases he : vs.isEmpty with
      | true => simp [exceptOk, he]
      | false => simp [exceptOk, he]

/-- C5: the text value-list parser splits on `';'` only outside single-quote
spans, so `"'a'; 'b;c'; 'd'"` yields exactly `["a", "b;c", "d"]` (the
semicolon inside the quoted span is not a separator, and the quotes are
removed); in general it succeeds exactly when at least one non-empty stripped
part remains and every remaining part matches the quoted-literal form. -/
theorem C5_text_value_list :
    _parse_text_values_list "'a'; 'b;c'; 'd'" = Except.ok ["a", "b;c", "d"]
    ∧ ∀ raw : String,
        exceptOk (_parse_text_values_list raw)
          = (!(textTokens raw).isEmpty
              && (textTokens raw).all (fun t => (matchTextLiteral t).isSome)) := by
  refine ⟨by decide, ?_⟩
  intro raw
  simp only [textTokens]
  by_cases h0 : raw = ""
  · subst h0
    decide
  · rw [_parse_text_values_list, if_neg h0]
    cases hr : parseToks matchTextLiteral "bad text token"
        ((splitOutsideQuotes raw).map pyStrip) with
    | error e =>
      have hall := exceptOk_parseToks matchTextLiteral "bad text token"
        ((splitOutsideQuotes raw).map pyStrip)
      rw [hr] at hall
      rw [← hall]
      simp [exceptOk]
    | ok vs =>
      have hall := exceptOk_parseToks matchTextLiteral "bad text token"
        ((splitOutsideQuotes raw).map pyStrip)
      rw [hr] at hall
      have hemp := isEmpty_eq_of_length_eq _ _
        (length_parseToks matchTextLiteral "bad text token" _ vs hr)
      rw [← hall, ← hemp]
      cases he : vs.isEmpty with
      | true => simp [exceptOk, he]
      | false => simp [exceptOk, he]

theorem str_data_append (a b : String) : (a ++ b).data = a.data ++ b.data := by
  cases a
  cases b
  rfl

theorem startsW_append (x y : List Char) : startsW (x ++ y) x = true := by
  induction x with
  | nil => cases y <;> rfl
  | cons c cs ih =>
    show startsW (c :: (cs ++ y)) (c :: cs) = true
    simp [startsW, ih]

theorem hasSub_append_self (x y : List Char) : hasSub x (x ++ y) = true := by
  cases x with
  | nil =>
    cases y with
    | nil => rfl
    | cons c t => rfl
  | cons c cs =>
    rw [List.cons_append, hasSub]
    have h : startsW (c :: (cs ++ y)) (c :: cs) = true := startsW_append (c :: cs) y
    rw [h, Bool.true_or]

theorem hasSub_append_right (pat a b : List Char) (h : hasSub pat b = true) :
    hasSub pat (a ++ b) = true := by
  induction a with
  | nil => simpa using h
  | cons c t ih =>
    rw [List.cons_append, hasSub, ih, Bool.or_true]

theorem hasSub_joinCommaSep (ms : List String) (x : String) (hx : x ∈ ms) :
    hasSub x.data (joinCommaSep ms).data = true := by
  induction ms with
  | nil => cases hx
  | cons s rest ih =>
    cases rest with
    | nil =>
      rcases List.mem_singleton.mp hx with rfl
      rw [joinCommaSep]
      simpa using hasSub_append_self x.data []
    | cons r rest' =>
      rw [joinCommaSep]
      cases List.mem_cons.mp hx with
      | inl h =>
        subst h
        rw [str_data_append, str_data_append, List.append_assoc]
        exact hasSub_append_self _ _
      | inr h =>
        rw [str_data_append]
        exact hasSub_append_right _ _ _ (ih h)

/-- C6: the template validator succeeds exactly when the template is
non-empty, contains the literal `{name}`, and contains every selected
parameter's placeholder; its result does not depend on the selected export
format's extension at all (the trailing-extension check is a no-op); and on
failure due to missing placeholders, the message names each missing
placeholder. -/
theorem C6_template_validator (template : String) (names : List String) (ext : String) :
    ((_validate_filename_template template names ext).1 = true
      ↔ (template ≠ "" ∧ hasSubstr template "{name}" = true
          ∧ ∀ p ∈ names, hasSubstr template (placeholder p) = true))
    ∧ (∀ ext' : String,
        _validate_filename_template template names ext
          = _validate_filename_template template names ext')
    ∧ (∀ p ∈ names, hasSubstr template (placeholder p) = false → template ≠ "" →
        hasSubstr template "{name}" = true →
        hasSubstr (_validate_filename_template template names ext).2 (placeholder p)
          = true) := by
  refine ⟨?_, fun ext' => rfl, ?_⟩
  · by_cases h0 : template = ""
    · subst h0
      rw [_validate_filename_template, if_pos rfl]
      simp
    · rw [_validate_filename_template, if_neg h0]
      by_cases hn : hasSubstr template "{name}" = true
      · rw [if_neg (by simp [hn])]
        by_cases hm : (names.filter (fun p => !hasSubstr template (placeholder p))).isEmpty
            = true
        · rw [if_neg (by simp [hm])]
          constructor
          · intro h9
            refine ⟨h0, hn, ?_⟩
            intro p hp
            have h2 := List.filter_eq_nil_iff.mp (List.isEmpty_iff.mp hm) p hp
            simpa using h2
          · intro h9
            rfl
        · rw [if_pos (by simp [hm])]
          have hne : names.filter (fun p => !hasSubstr template (placeholder p)) ≠ [] := by
            intro e
            rw [e] at hm
            simp at hm
          obtain ⟨p, hp⟩ := List.exists_mem_of_ne_nil _ hne
          have hpn := (List.mem_filter.mp hp).1
          have hpf : hasSubstr template (placeholder p) = false := by
            have h3 := (List.mem_filter.mp hp).2
            simpa using h3
          apply iff_of_false
          · simp
          · rintro ⟨-, -, hall⟩
            rw [hall p hpn] at hpf
            cases hpf
      · rw [if_pos (by simp [Bool.not_eq_true] at hn; simp [hn])]
        apply iff_of_false
        · simp
        · rintro ⟨-, h2, -⟩
          exact hn h2
  · intro p hp habs ht hnm
    have hpm : p ∈ names.filter (fun q => !hasSubstr template (placeholder q)) :=
      List.mem_filter.mpr ⟨hp, by simp [habs]⟩
    have hne : ¬((names.filter (fun q => !hasSubstr template (placeholder q))).isEmpty
        = true) := by
      intro h4
      exact List.ne_nil_of_mem hpm (List.isEmpty_iff.mp h4)
    rw [_validate_filename_template, if_neg ht, if_neg (by simp [hnm]),
      if_pos (by simpa using hne)]
    show hasSub (placeholder p).data
      (("Filename template is missing placeholders: "
        ++ joinCommaSep ((names.filter (fun q => !hasSubstr template (placeholder q))).map
              placeholder)).data) = true
    rw [str_data_append]
    exact hasSub_append_right _ _ _
      (hasSub_joinCommaSep _ _ (List.mem_map_of_mem placeholder hpm))

/-- C6 witness: the theorem applied at a template missing the `{h}`
placeholder — the failure message names the missing placeholder. -/
theorem C6_witness :
    hasSubstr (_validate_filename_template "{name}_{w}.obj" ["w", "h"] "obj").2
      (placeholder "h") = true :=
  (C6_template_validator "{name}_{w}.obj" ["w", "h"] "obj").2.2 "h" (by decide)
    (by decide) (by decide) (by decide)

/-! ## Lemmas about the driver's basic state operations -/

theorem alookup_append {β : Type} (a b : List (String × β)) (n : String) :
    alookup (a ++ b) n
      = match alookup a n with
        | some v => some v
        | none => alookup b n := by
  induction a with
  | nil => rfl
  | cons kv r ih =>
    obtain ⟨k, v⟩ := kv
    by_cases hk : k = n
    · simp [alookup, hk]
    · simp [alookup, hk, ih]

theorem alookup_eq_none_iff {β : Type} (l : List (String × β)) (n : String) :
    alookup l n = none ↔ n ∉ l.map Prod.fst := by
  induction l with
  | nil => simp [alookup]
  | cons kv r ih =>
    obtain ⟨k, v⟩ := kv
    by_cases hk : k = n
    · simp [alookup, hk]
    · simp only [alookup, if_neg hk, List.map_cons, List.mem_cons, ih, not_or]
      constructor
      · intro hh
        exact ⟨fun h1 => hk h1.symm, hh⟩
      · intro hh
        exact hh.2

theorem alookup_isSome_of_mem {β : Type} (l : List (String × β)) (n : String)
    (h : n ∈ l.map Prod.fst) : (alookup l n).isSome = true := by
  cases ha : alookup l n with
  | some v => rfl
  | none => exact absurd h ((alookup_eq_none_iff l n).mp ha)

theorem setParamExpr_names (ps : List UParam) (n e : String) :
    (setParamExpr ps n e).map UParam.name = ps.map UParam.name := by
  induction ps with
  | nil => rfl
  | cons p r ih =>
    by_cases hp : p.name = n
    · simp [setParamExpr, hp] at ih ⊢
      exact ih
    · simp [setParamExpr, hp] at ih ⊢
      exact ih

theorem paramExprOf_setParamExpr (ps : List UParam) (n e m : String) :
    paramExprOf (setParamExpr ps n e) m
      = if m = n then (paramExprOf ps m).map (fun _ => e) else paramExprOf ps m := by
  induction ps with
  | nil =>
    by_cases h : m = n <;> simp [paramExprOf, setParamExpr, itemByName, h]
  | cons p r ih =>
    by_cases hpm : p.name = m
    · by_cases hpn : p.name = n
      · have hmn : m = n := hpm ▸ hpn
        simp [paramExprOf, setParamExpr, itemByName, List.find?, hpm, hpn, hmn]
      · have hmn : ¬(m = n) := by
          rw [← hpm]
          exact hpn
        simp [paramExprOf, setParamExpr, itemByName, List.find?, hpm, hpn, hmn]
    · by_cases hpn : p.name = n
      · simp only [paramExprOf, setParamExpr, itemByName, List.map_cons, List.find?_cons,
          if_pos hpn] at ih ⊢
        have hname : ({ p with expression := e } : UParam).name = p.name := rfl
        rw [hname]
        have hbe : (p.name == m) = false := by simp [hpm]
        rw [hbe]
        simpa [paramExprOf, setParamExpr, itemByName] using ih
      · simp only [paramExprOf, setParamExpr, itemByName, List.map_cons, List.find?_cons,
          if_neg hpn] at ih ⊢
        have hbe : (p.name == m) = false := by simp [hpm]
        rw [hbe]
        simpa [paramExprOf, setParamExpr, itemByName] using ih

theorem itemByName_isSome_of_names_eq (ps qs : List UParam) (n : String)
    (h : ps.map UParam.name = qs.map UParam.name) :
    (itemByName ps n).isSome = (itemByName qs n).isSome := by
  induction ps generalizing qs with
  | nil =>
    cases qs with
    | nil => rfl
    | cons q qs' => simp at h
  | cons p ps' ih =>
    cases qs with
    | nil => simp at h
    | cons q qs' =>
      simp only [List.map_cons, List.cons.injEq] at h
      obtain ⟨h1, h2⟩ := h
      by_cases hp : p.name = n
      · have h1' : q.name = n := by
          rw [← h1]
          exact hp
        rw [itemByName, itemByName,
          List.find?_cons_of_pos _ (by simp [hp]),
          List.find?_cons_of_pos _ (by simp [h1'])]
        rfl
      · have hq : ¬(q.name = n) := by
          rw [← h1]
          exact hp
        rw [itemByName, itemByName,
          List.find?_cons_of_neg _ (by simp [hp]),
          List.find?_cons_of_neg _ (by simp [hq])]
        exact ih qs' h2

theorem restore_fold_spec (cache : List (String × String)) (ps : List UParam)
    (hnodup : (cache.map Prod.fst).Nodup) (n : String) :
    paramExprOf
        (cache.foldl
          (fun ps ce =>
            if (itemByName ps ce.1).isSome then setParamExpr ps ce.1 ce.2 else ps)
          ps) n
      = match alookup cache n with
        | some e => (paramExprOf ps n).map (fun _ => e)
        | none => paramExprOf ps n := by
  induction cache generalizing ps with
  | nil => rfl
  | cons ce rest ih =>
    obtain ⟨k, e0⟩ := ce
    rw [List.foldl_cons]
    have hnd : (rest.map Prod.fst).Nodup := by
      simpa using hnodup.of_cons
    have hknotin : k ∉ rest.map Prod.fst := by
      simp only [List.map_cons, List.nodup_cons] at hnodup
      exact hnodup.1
    by_cases hkn : k = n
    · subst hkn
      have hrest : alookup rest k = none := (alookup_eq_none_iff rest k).mpr hknotin
      rw [ih _ hnd]
      rw [hrest]
      show (paramExprOf
          (if (itemByName ps k).isSome = true then setParamExpr ps k e0 else ps) k)
        = match alookup ((k, e0) :: rest) k with
          | some e => (paramExprOf ps k).map (fun _ => e)
          | none => paramExprOf ps k
      have hl : alookup ((k, e0) :: rest) k = some e0 := by simp [alookup]
      rw [hl]
      by_cases hex : (itemByName ps k).isSome = true
      · rw [if_pos hex, paramExprOf_setParamExpr, if_pos rfl]
      · rw [if_neg hex]
        have : paramExprOf ps k = none := by
          rw [paramExprOf]
          cases hi : itemByName ps k with
          | none => rfl
          | some u =>
            rw [hi] at hex
            simp at hex
        rw [this]
        rfl
    · have hl : alookup ((k, e0) :: rest) n = alookup rest n := by simp [alookup, hkn]
      rw [hl, ih _ hnd]
      have hsame : paramExprOf
          (if (itemByName ps k).isSome = true then setParamExpr ps k e0 else ps) n
        = paramExprOf ps n := by
        by_cases hex : (itemByName ps k).isSome = true
        · rw [if_pos hex, paramExprOf_setParamExpr,
            if_neg (fun hc => hkn hc.symm)]
        · rw [if_neg hex]
      rw [hsame]

theorem map_fst_setAllVis (l : List (String × Bool)) (v : Bool) :
    (setAllVis l v).map Prod.fst = l.map Prod.fst := by
  simp [setAllVis, List.map_map, Function.comp_def]

theorem map_fst_setVisList (l : List (String × Bool)) (t : String) (v : Bool) :
    (setVisList l t v).map Prod.fst = l.map Prod.fst := by
  induction l with
  | nil => rfl
  | cons kv r ih =>
    by_cases hk : kv.1 = t
    · simp [setVisList, hk] at ih ⊢
      exact ih
    · simp [setVisList, hk] at ih ⊢
      exact ih

theorem map_fst_restoreVisList (cur snap : List (String × Bool)) :
    (restoreVisList cur snap).map Prod.fst = cur.map Prod.fst := by
  simp [restoreVisList, List.map_map, Function.comp_def]

theorem alookup_restoreVisList (cur snap : List (String × Bool))
    (h : cur.map Prod.fst = snap.map Prod.fst) (t : String) :
    alookup (restoreVisList cur snap) t = alookup snap t := by
  have key : ∀ (l : List (String × Bool)),
      alookup (restoreVisList l snap) t
        = if t ∈ l.map Prod.fst then some ((alookup snap t).getD true) else none := by
    intro l
    induction l with
    | nil => simp [restoreVisList, alookup]
    | cons kv r ih =>
      obtain ⟨k, b⟩ := kv
      by_cases hk : k = t
      · subst hk
        simp [restoreVisList, alookup, ih]
      · simp only [restoreVisList, List.map_cons, alookup, if_neg hk, List.mem_cons] at ih ⊢
        rw [ih]
        by_cases hm : t ∈ r.map Prod.fst
        · rw [if_pos hm, if_pos (Or.inr hm)]
        · rw [if_neg hm, if_neg ?_]
          rintro (h1 | h2)
          · exact hk h1.symm
          · exact hm h2
  rw [key cur, h]
  by_cases hm : t ∈ snap.map Prod.fst
  · rw [if_pos hm]
    cases ha : alookup snap t with
    | some v => rfl
    | none => exact absurd hm (by simpa using (alookup_eq_none_iff snap t).mp ha)
  · rw [if_neg hm, (alookup_eq_none_iff snap t).mpr hm]

/-! ## Trace and invariant lemmas for the driver's operations -/

theorem progressSteps_append (a b : List Ev) :
    progressSteps (a ++ b) = progressSteps a ++ progressSteps b :=
  List.filterMap_append a b _

theorem TraceExt_rfl (st : RunState) : TraceExt st st :=
  ⟨[], by simp, rfl, by simp, by simp⟩

theorem TraceExt_trans {a b c : RunState} (h1 : TraceExt a b) (h2 : TraceExt b c) :
    TraceExt a c := by
  obtain ⟨e1, t1, p1, l1, x1⟩ := h1
  obtain ⟨e2, t2, p2, l2, x2⟩ := h2
  refine ⟨e1 ++ e2, ?_, ?_, ?_, ?_⟩
  · rw [t2, t1, List.append_assoc]
  · rw [progressSteps_append, p1, p2]
    rfl
  · intro e he
    rcases List.mem_append.mp he with h | h
    · exact l1 e h
    · exact l2 e h
  · intro s p hp
    rcases List.mem_append.mp hp with h | h
    · exact x1 s p h
    · exact x2 s p h

theorem setOneParam_TraceExt (st : RunState) (n : String) (v : PyVal) :
    TraceExt st (setOneParam st n v) := by
  cases hfind : itemByName st.design.params n with
  | none =>
    simp only [setOneParam, hfind]
    exact TraceExt_rfl st
  | some up =>
    simp only [setOneParam, hfind]
    refine ⟨[Ev.setParamEv n (newExprFor up v)], rfl, rfl, ?_, ?_⟩
    · intro e he
      rw [List.mem_singleton] at he
      subst he
      exact ⟨fun hc => Ev.noConfusion hc, fun hc => Ev.noConfusion hc⟩
    · intro s p hp
      rw [List.mem_singleton] at hp
      exact Ev.noConfusion hp

theorem set_user_params_TraceExt (st : RunState) (names : List String)
    (combo : List PyVal) : TraceExt st (_set_user_params st names combo) := by
  rw [_set_user_params]
  generalize names.zip combo = l
  induction l generalizing st with
  | nil => exact TraceExt_rfl st
  | cons pv r ih =>
    rw [List.foldl_cons]
    exact TraceExt_trans (setOneParam_TraceExt st pv.1 pv.2) (ih _)

theorem setOneParam_LInv (d0 : Design) (st : RunState) (n : String) (v : PyVal)
    (h : LInv d0 st) : LInv d0 (setOneParam st n v) := by
  obtain ⟨h1, h2, h3, h4, h5, h6⟩ := h
  cases hfind : itemByName st.design.params n with
  | none =>
    simp only [setOneParam, hfind]
    exact ⟨h1, h2, h3, h4, h5, h6⟩
  | some up =>
    simp only [setOneParam, hfind]
    by_cases hc : (alookup st.cache n).isSome = true
    · rw [if_pos hc]
      refine ⟨?_, ?_, h3, h4, h5, h6⟩
      · show (setParamExpr st.design.params n (newExprFor up v)).map UParam.name
          = d0.params.map UParam.name
        rw [setParamExpr_names]
        exact h1
      · intro m hm
        have hmn : m ≠ n := by
          intro e
          subst e
          rw [hm] at hc
          simp at hc
        show paramExprOf (setParamExpr st.design.params n (newExprFor up v)) m
          = paramExprOf d0.params m
        rw [paramExprOf_setParamExpr, if_neg hmn]
        exact h2 m hm
    · have hnone : alookup st.cache n = none := by
        cases hl : alookup st.cache n with
        | none => rfl
        | some e =>
          rw [hl] at hc
          simp at hc
      have hnotin : n ∉ st.cache.map Prod.fst := (alookup_eq_none_iff _ _).mp hnone
      rw [if_neg hc]
      refine ⟨?_, ?_, ?_, ?_, h5, h6⟩
      · show (setParamExpr st.design.params n (newExprFor up v)).map UParam.name
          = d0.params.map UParam.name
        rw [setParamExpr_names]
        exact h1
      · intro m hm
        have hmold : alookup st.cache m = none := by
          rw [alookup_append] at hm
          cases hl : alookup st.cache m with
          | none => rfl
          | some e =>
            rw [hl] at hm
            simp at hm
        have hmn : m ≠ n := by
          intro e
          subst e
          rw [alookup_append, hmold] at hm
          simp [alookup] at hm
        show paramExprOf (setParamExpr st.design.params n (newExprFor up v)) m
          = paramExprOf d0.params m
        rw [paramExprOf_setParamExpr, if_neg hmn]
        exact h2 m hmold
      · intro m e hme
        rw [alookup_append] at hme
        cases hl : alookup st.cache m with
        | some e' =>
          rw [hl] at hme
          simp only at hme
          injection hme with hme
          subst hme
          exact h3 m e' hl
        | none =>
          rw [hl] at hme
          simp only at hme
          have hpair : n = m ∧ up.expression = e := by
            by_cases hmn : n = m
            · subst hmn
              simp [alookup] at hme
              exact ⟨rfl, hme⟩
            · simp [alookup, hmn] at hme
          obtain ⟨rfl, rfl⟩ := hpair
          rw [← h2 n hl, paramExprOf, hfind]
          rfl
      · show ((st.cache ++ [(n, up.expression)]).map Prod.fst).Nodup
        rw [List.map_append]
        rw [List.nodup_append]
        refine ⟨h4, List.nodup_singleton _, ?_⟩
        intro a ha
        simp only [List.map_cons, List.map_nil, List.mem_singleton]
        intro he
        subst he
        exact hnotin ha

theorem set_user_params_LInv (d0 : Design) (st : RunState) (names : List String)
    (combo : List PyVal) (h : LInv d0 st) :
    LInv d0 (_set_user_params st names combo) := by
  rw [_set_user_params]
  generalize names.zip combo = l
  induction l generalizing st with
  | nil => exact h
  | cons pv r ih =>
    rw [List.foldl_cons]
    exact ih _ (setOneParam_LInv d0 st pv.1 pv.2 h)

theorem addEv_LInv (d0 : Design) (st : RunState) (e : Ev) (h : LInv d0 st) :
    LInv d0 (addEv st e) := h

theorem isolate_cache (st : RunState) (obj : ExpObj) :
    (_isolate_for_step st obj).cache = st.cache := by
  cases hk : obj.kind <;> simp [_isolate_for_step, hk]

theorem isolate_params (st : RunState) (obj : ExpObj) :
    (_isolate_for_step st obj).design.params = st.design.params := by
  cases hk : obj.kind <;> simp [_isolate_for_step, hk]

theorem isolate_trace (st : RunState) (obj : ExpObj) :
    (_isolate_for_step st obj).trace = st.trace ++ [Ev.isolateEv] := by
  cases hk : obj.kind <;> simp [_isolate_for_step, hk]

theorem isolate_LInv (d0 : Design) (st : RunState) (obj : ExpObj) (h : LInv d0 st) :
    LInv d0 (_isolate_for_step st obj) := by
  obtain ⟨h1, h2, h3, h4, h5, h6⟩ := h
  cases hk : obj.kind with
  | component =>
    simp only [_isolate_for_step, hk]
    refine ⟨h1, h2, h3, h4, h5, ?_⟩
    show (setVisList (setAllVis st.design.occs false) obj.token true).map Prod.fst
      = d0.occs.map Prod.fst
    rw [map_fst_setVisList, map_fst_setAllVis]
    exact h6
  | body =>
    simp only [_isolate_for_step, hk]
    refine ⟨h1, h2, h3, h4, ?_, ?_⟩
    · show (setVisList (setAllVis st.design.bodies false) obj.token true).map Prod.fst
        = d0.bodies.map Prod.fst
      rw [map_fst_setVisList, map_fst_setAllVis]
      exact h5
    · cases hp : obj.parentOcc with
      | some t =>
        simp only [hp]
        show (setVisList (setAllVis st.design.occs false) t true).map Prod.fst
          = d0.occs.map Prod.fst
        rw [map_fst_setVisList, map_fst_setAllVis]
        exact h6
      | none =>
        simp only [hp]
        show (setAllVis st.design.occs false).map Prod.fst = d0.occs.map Prod.fst
        rw [map_fst_setAllVis]
        exact h6

theorem restore_visibility_LInv (d0 : Design) (st : RunState)
    (snapB snapO : List (String × Bool)) (h : LInv d0 st) :
    LInv d0 (_restore_visibility st snapB snapO) := by
  obtain ⟨h1, h2, h3, h4, h5, h6⟩ := h
  refine ⟨h1, h2, h3, h4, ?_, ?_⟩
  · show (restoreVisList st.design.bodies snapB).map Prod.fst = d0.bodies.map Prod.fst
    rw [map_fst_restoreVisList]
    exact h5
  · show (restoreVisList st.design.occs snapO).map Prod.fst = d0.occs.map Prod.fst
    rw [map_fst_restoreVisList]
    exact h6

/-! ## Lemmas about the per-object export loop -/

theorem runObjects_state (d0 : Design) (orc : Oracle) (fmt : ExportFormat)
    (template outDir : String) (snapB snapO : List (String × Bool))
    (pvMap : List (String × PyVal)) (objs : List ExpObj) :
    ∀ (st : RunState) (step : Nat),
      (runObjects orc fmt template outDir snapB snapO pvMap objs st step).1.cache = st.cache
      ∧ (runObjects orc fmt template outDir snapB snapO pvMap objs st step).1.design.params
          = st.design.params
      ∧ (LInv d0 st →
          LInv d0 (runObjects orc fmt template outDir snapB snapO pvMap objs st step).1) := by
  induction objs with
  | nil => exact fun st step => ⟨rfl, rfl, id⟩
  | cons obj rest ih =>
    intro st step
    cases hb : _build_filename template obj.name pvMap with
    | none =>
      simp only [runObjects, hb]
      exact ⟨by simp [addEv], by simp [addEv], fun h => h⟩
    | some fname =>
      simp only [runObjects, hb]
      by_cases hcan : orc.cancelAt (step + 1) = true
      · rw [if_pos hcan]
        exact ⟨by simp [addEv], by simp [addEv], fun h => h⟩
      · rw [if_neg hcan]
        by_cases hfmt : fmt = ExportFormat.STEP
        · rw [if_pos hfmt]
          have hlinv4 : LInv d0 st →
              LInv d0 (_restore_visibility
                (addEv (_isolate_for_step (addEv st (Ev.progressEv (step + 1))) obj)
                  (Ev.exportEv (step + 1) (outDir ++ "/" ++ fname)))
                snapB snapO) :=
            fun h => restore_visibility_LInv d0 _ snapB snapO
              (addEv_LInv d0 _ _ (isolate_LInv d0 _ obj (addEv_LInv d0 st _ h)))
          by_cases hok : orc.exportOk (step + 1) = true
          · rw [if_pos hok]
            obtain ⟨ic, ip, il⟩ := ih _ (step + 1)
            refine ⟨?_, ?_, fun h => il (hlinv4 h)⟩
            · rw [ic]
              show (_isolate_for_step (addEv st (Ev.progressEv (step + 1))) obj).cache
                = st.cache
              rw [isolate_cache]
              rfl
            · rw [ip]
              show (_isolate_for_step
                  (addEv st (Ev.progressEv (step + 1))) obj).design.params
                = st.design.params
              rw [isolate_params]
              rfl
          · rw [if_neg hok]
            refine ⟨?_, ?_, hlinv4⟩
            · show (_isolate_for_step (addEv st (Ev.progressEv (step + 1))) obj).cache
                = st.cache
              rw [isolate_cache]
              rfl
            · show (_isolate_for_step
                  (addEv st (Ev.progressEv (step + 1))) obj).design.params
                = st.design.params
              rw [isolate_params]
              rfl
        · rw [if_neg hfmt]
          by_cases hok : orc.exportOk (step + 1) = true
          · rw [if_pos hok]
            obtain ⟨ic, ip, il⟩ := ih _ (step + 1)
            exact ⟨ic, ip, fun h => il h⟩
          · rw [if_neg hok]
            exact ⟨by simp [addEv], by simp [addEv], fun h => h⟩

theorem runObjects_trace (orc : Oracle) (fmt : ExportFormat)
    (template outDir : String) (snapB snapO : List (String × Bool))
    (pvMap : List (String × PyVal)) (objs : List ExpObj) :
    ∀ (st : RunState) (step : Nat),
      ∀ e ∈ (runObjects orc fmt template outDir snapB snapO pvMap objs st step).1.trace,
        e ∈ st.trace ∨ loopEv e := by
  induction objs with
  | nil => exact fun st step e he => Or.inl he
  | cons obj rest ih =>
    intro st step
    cases hb : _build_filename template obj.name pvMap with
    | none =>
      simp only [runObjects, hb]
      exact fun e he => Or.inl he
    | some fname =>
      simp only [runObjects, hb]
      by_cases hcan : orc.cancelAt (step + 1) = true
      · rw [if_pos hcan]
        intro e he
        rcases List.mem_append.mp he with h | h
        · exact Or.inl h
        · rw [List.mem_singleton] at h
          subst h
          exact Or.inr ⟨fun hc => Ev.noConfusion hc, fun hc => Ev.noConfusion hc⟩
      · rw [if_neg hcan]
        have hstep4 : ∀ p' : String,
            (_restore_visibility
              (addEv (_isolate_for_step (addEv st (Ev.progressEv (step + 1))) obj)
                (Ev.exportEv (step + 1) p'))
              snapB snapO).trace
            = st.trace ++ [Ev.progressEv (step + 1), Ev.isolateEv,
                Ev.exportEv (step + 1) p', Ev.restoreVisEv] := by
          intro p'
          show (_isolate_for_step (addEv st (Ev.progressEv (step + 1))) obj).trace
              ++ [Ev.exportEv (step + 1) p'] ++ [Ev.restoreVisEv]
            = st.trace ++ _
          rw [isolate_trace]
          show st.trace ++ [Ev.progressEv (step + 1)] ++ [Ev.isolateEv]
              ++ [Ev.exportEv (step + 1) p'] ++ [Ev.restoreVisEv] = _
          simp [List.append_assoc]
        have hmem4 : ∀ p' : String, ∀ e,
            e ∈ [Ev.progressEv (step + 1), Ev.isolateEv,
                Ev.exportEv (step + 1) p', Ev.restoreVisEv] → loopEv e := by
          intro p' e he
          simp only [List.mem_cons, List.mem_singleton, List.not_mem_nil, or_false] at he
          rcases he with rfl | rfl | rfl | rfl
          · exact ⟨fun hc => Ev.noConfusion hc, fun hc => Ev.noConfusion hc⟩
          · exact ⟨fun hc => Ev.noConfusion hc, fun hc => Ev.noConfusion hc⟩
          · exact ⟨fun hc => Ev.noConfusion hc, fun hc => Ev.noConfusion hc⟩
          · exact ⟨fun hc => Ev.noConfusion hc, fun hc => Ev.noConfusion hc⟩
        by_cases hfmt : fmt = ExportFormat.STEP
        · rw [if_pos hfmt]
          by_cases hok : orc.exportOk (step + 1) = true
          · rw [if_pos hok]
            intro e he
            rcases ih _ (step + 1) e he with h | h
            · rw [hstep4 (outDir ++ "/" ++ fname)] at h
              rcases List.mem_append.mp h with h' | h'
              · exact Or.inl h'
              · exact Or.inr (hmem4 _ e h')
            · exact Or.inr h
          · rw [if_neg hok]
            intro e he
            rw [show (_restore_visibility
                (addEv (_isolate_for_step (addEv st (Ev.progressEv (step + 1))) obj)
                  (Ev.exportEv (step + 1) (outDir ++ "/" ++ fname)))
                snapB snapO).trace = _ from hstep4 (outDir ++ "/" ++ fname)] at he
            rcases List.mem_append.mp he with h' | h'
            · exact Or.inl h'
            · exact Or.inr (hmem4 _ e h')
        · rw [if_neg hfmt]
          have hmem2 : ∀ p' : String, ∀ e,
              e ∈ [Ev.progressEv (step + 1), Ev.exportEv (step + 1) p'] → loopEv e := by
            intro p' e he
            simp only [List.mem_cons, List.mem_singleton, List.not_mem_nil, or_false] at he
            rcases he with rfl | rfl
            · exact ⟨fun hc => Ev.noConfusion hc, fun hc => Ev.noConfusion hc⟩
            · exact ⟨fun hc => Ev.noConfusion hc, fun hc => Ev.noConfusion hc⟩
          have htr2 : ∀ p' : String,
              (addEv (addEv st (Ev.progressEv (step + 1))) (Ev.exportEv (step + 1) p')).trace
                = st.trace ++ [Ev.progressEv (step + 1), Ev.exportEv (step + 1) p'] := by
            intro p'
            show st.trace ++ [Ev.progressEv (step + 1)] ++ [Ev.exportEv (step + 1) p'] = _
            simp [List.append_assoc]
          by_cases hok : orc.exportOk (step + 1) = true
          · rw [if_pos hok]
            intro e he
            rcases ih _ (step + 1) e he with h | h
            · rw [htr2 (outDir ++ "/" ++ fname)] at h
              rcases List.mem_append.mp h with h' | h'
              · exact Or.inl h'
              · exact Or.inr (hmem2 _ e h')
            · exact Or.inr h
          · rw [if_neg hok]
            intro e he
            rw [show (addEv (addEv st (Ev.progressEv (step + 1)))
                (Ev.exportEv (step + 1) (outDir ++ "/" ++ fname))).trace = _ from
              htr2 (outDir ++ "/" ++ fname)] at he
            rcases List.mem_append.mp he with h' | h'
            · exact Or.inl h'
            · exact Or.inr (hmem2 _ e h')

theorem trace_step4 (st : RunState) (obj : ExpObj) (s : Nat) (p' : String)
    (snapB snapO : List (String × Bool)) :
    (_restore_visibility
        (addEv (_isolate_for_step (addEv st (Ev.progressEv s)) obj) (Ev.exportEv s p'))
        snapB snapO).trace
      = st.trace ++ [Ev.progressEv s, Ev.isolateEv, Ev.exportEv s p', Ev.restoreVisEv] := by
  show (_isolate_for_step (addEv st (Ev.progressEv s)) obj).trace
      ++ [Ev.exportEv s p'] ++ [Ev.restoreVisEv] = _
  rw [isolate_trace]
  show st.trace ++ [Ev.progressEv s] ++ [Ev.isolateEv]
      ++ [Ev.exportEv s p'] ++ [Ev.restoreVisEv] = _
  simp [List.append_assoc]

theorem trace_step2 (st : RunState) (s : Nat) (p' : String) :
    (addEv (addEv st (Ev.progressEv s)) (Ev.exportEv s p')).trace
      = st.trace ++ [Ev.progressEv s, Ev.exportEv s p'] := by
  show st.trace ++ [Ev.progressEv s] ++ [Ev.exportEv s p'] = _
  simp [List.append_assoc]

theorem range'_snoc (step : Nat) :
    List.range' 1 step ++ [step + 1] = List.range' 1 (step + 1) := by
  have h : 1 + 1 * step = step + 1 := by omega
  rw [List.range'_concat, h]

theorem runObjects_progress (orc : Oracle) (fmt : ExportFormat)
    (template outDir : String) (snapB snapO : List (String × Bool))
    (pvMap : List (String × PyVal)) (objs : List ExpObj) :
    ∀ (st : RunState) (step : Nat),
      progressSteps st.trace = List.range' 1 step →
      progressSteps
          (runObjects orc fmt template outDir snapB snapO pvMap objs st step).1.trace
        = List.range' 1
            (runObjects orc fmt template outDir snapB snapO pvMap objs st step).2.1
      ∧ (runObjects orc fmt template outDir snapB snapO pvMap objs st step).2.1
          ≤ step + objs.length := by
  induction objs with
  | nil =>
    intro st step h
    exact ⟨h, Nat.le_add_right _ _⟩
  | cons obj rest ih =>
    intro st step h
    cases hb : _build_filename template obj.name pvMap with
    | none =>
      simp only [runObjects, hb]
      refine ⟨h, ?_⟩
      simp only [List.length_cons]
      omega
    | some fname =>
      simp only [runObjects, hb]
      have hps1 : progressSteps (st.trace ++ [Ev.progressEv (step + 1)])
          = List.range' 1 (step + 1) := by
        rw [progressSteps_append, h]
        exact range'_snoc step
      by_cases hcan : orc.cancelAt (step + 1) = true
      · rw [if_pos hcan]
        refine ⟨hps1, ?_⟩
        simp only [List.length_cons]
        omega
      · rw [if_neg hcan]
        by_cases hfmt : fmt = ExportFormat.STEP
        · rw [if_pos hfmt]
          have hps4 : progressSteps
              (_restore_visibility
                (addEv (_isolate_for_step (addEv st (Ev.progressEv (step + 1))) obj)
                  (Ev.exportEv (step + 1) (outDir ++ "/" ++ fname)))
                snapB snapO).trace
              = List.range' 1 (step + 1) := by
            rw [trace_step4, progressSteps_append, h]
            exact range'_snoc step
          by_cases hok : orc.exportOk (step + 1) = true
          · rw [if_pos hok]
            obtain ⟨he, hbnd⟩ := ih _ (step + 1) hps4
            refine ⟨he, ?_⟩
            simp only [List.length_cons]
            omega
          · rw [if_neg hok]
            refine ⟨hps4, ?_⟩
            simp only [List.length_cons]
            omega
        · rw [if_neg hfmt]
          have hps2 : progressSteps
              (addEv (addEv st (Ev.progressEv (step + 1)))
                (Ev.exportEv (step + 1) (outDir ++ "/" ++ fname))).trace
              = List.range' 1 (step + 1) := by
            rw [trace_step2, progressSteps_append, h]
            exact range'_snoc step
          by_cases hok : orc.exportOk (step + 1) = true
          · rw [if_pos hok]
            obtain ⟨he, hbnd⟩ := ih _ (step + 1) hps2
            refine ⟨he, ?_⟩
            simp only [List.length_cons]
            omega
          · rw [if_neg hok]
            refine ⟨hps2, ?_⟩
            simp only [List.length_cons]
            omega

theorem runObjects_cancel (orc : Oracle) (fmt : ExportFormat)
    (template outDir : String) (snapB snapO : List (String × Bool))
    (pvMap : List (String × PyVal)) (objs : List ExpObj) :
    ∀ (st : RunState) (step : Nat),
      noCancelThrough orc step → exportsCancelFree orc st.trace →
      exportsCancelFree orc
          (runObjects orc fmt template outDir snapB snapO pvMap objs st step).1.trace
      ∧ ((runObjects orc fmt template outDir snapB snapO pvMap objs st step).2.2 = none →
          noCancelThrough orc
            (runObjects orc fmt template outDir snapB snapO pvMap objs st step).2.1) := by
  induction objs with
  | nil =>
    intro st step hP hQ
    exact ⟨hQ, fun _ => hP⟩
  | cons obj rest ih =>
    intro st step hP hQ
    cases hb : _build_filename template obj.name pvMap with
    | none =>
      simp only [runObjects, hb]
      exact ⟨hQ, fun hcon => Option.noConfusion hcon⟩
    | some fname =>
      simp only [runObjects, hb]
      by_cases hcan : orc.cancelAt (step + 1) = true
      · rw [if_pos hcan]
        constructor
        · intro s p hp
          rcases List.mem_append.mp hp with h' | h'
          · exact hQ s p h'
          · rw [List.mem_singleton] at h'
            exact Ev.noConfusion h'
        · intro hcon
          exact Option.noConfusion hcon
      · rw [if_neg hcan]
        have hcan' : orc.cancelAt (step + 1) = false := by
          simpa using hcan
        have hP1 : noCancelThrough orc (step + 1) := by
          intro t h1 h2
          by_cases ht : t = step + 1
          · subst ht
            exact hcan'
          · exact hP t h1 (by omega)
        have hQ4 : ∀ p' : String, exportsCancelFree orc
            (st.trace ++ [Ev.progressEv (step + 1), Ev.isolateEv,
              Ev.exportEv (step + 1) p', Ev.restoreVisEv]) := by
          intro p' s p hp
          rcases List.mem_append.mp hp with h' | h'
          · exact hQ s p h'
          · simp only [List.mem_cons, List.mem_singleton, List.not_mem_nil, or_false] at h'
            rcases h' with h' | h' | h' | h'
            · exact Ev.noConfusion h'
            · exact Ev.noConfusion h'
            · injection h' with h1 h2
              subst h1
              exact hP1
            · exact Ev.noConfusion h'
        have hQ2 : ∀ p' : String, exportsCancelFree orc
            (st.trace ++ [Ev.progressEv (step + 1), Ev.exportEv (step + 1) p']) := by
          intro p' s p hp
          rcases List.mem_append.mp hp with h' | h'
          · exact hQ s p h'
          · simp only [List.mem_cons, List.mem_singleton, List.not_mem_nil, or_false] at h'
            rcases h' with h' | h'
            · exact Ev.noConfusion h'
            · injection h' with h1 h2
              subst h1
              exact hP1
        by_cases hfmt : fmt = ExportFormat.STEP
        · rw [if_pos hfmt]
          by_cases hok : orc.exportOk (step + 1) = true
          · rw [if_pos hok]
            refine ih _ (step + 1) hP1 ?_
            rw [trace_step4]
            exact hQ4 _
          · rw [if_neg hok]
            refine ⟨?_, fun hcon => Option.noConfusion hcon⟩
            intro s p hp
            rw [trace_step4] at hp
            exact hQ4 _ s p hp
        · rw [if_neg hfmt]
          by_cases hok : orc.exportOk (step + 1) = true
          · rw [if_pos hok]
            refine ih _ (step + 1) hP1 ?_
            rw [trace_step2]
            exact hQ2 _
          · rw [if_neg hok]
            refine ⟨?_, fun hcon => Option.noConfusion hcon⟩
            intro s p hp
            rw [trace_step2] at hp
            exact hQ2 _ s p hp

/-! ## Lemmas about the per-combination loop -/

theorem runCombos_state (d0 : Design) (orc : Oracle) (fmt : ExportFormat)
    (template outDir : String) (snapB snapO : List (String × Bool))
    (objs : List ExpObj) (names : List String) (combos : List (List PyVal)) :
    ∀ (st : RunState) (step : Nat), LInv d0 st →
      LInv d0
        (runCombos orc fmt template outDir snapB snapO objs names combos st step).1 := by
  induction combos with
  | nil => exact fun st step h => h
  | cons combo rest ih =>
    intro st step h
    simp only [runCombos]
    have h2 : LInv d0 (addEv (_set_user_params st names combo) Ev.computeEv) :=
      addEv_LInv d0 _ _ (set_user_params_LInv d0 st names combo h)
    have h3 := (runObjects_state d0 orc fmt template outDir snapB snapO
      (names.zip combo) objs (addEv (_set_user_params st names combo) Ev.computeEv)
      step).2.2 h2
    cases hr : (runObjects orc fmt template outDir snapB snapO (names.zip combo) objs
        (addEv (_set_user_params st names combo) Ev.computeEv) step).2.2 with
    | none =>
      simp only [hr]
      exact ih _ _ h3
    | some f =>
      simp only [hr]
      exact h3

theorem runCombos_trace (orc : Oracle) (fmt : ExportFormat)
    (template outDir : String) (snapB snapO : List (String × Bool))
    (objs : List ExpObj) (names : List String) (combos : List (List PyVal)) :
    ∀ (st : RunState) (step : Nat),
      ∀ e ∈ (runCombos orc fmt template outDir snapB snapO objs names combos st step).1.trace,
        e ∈ st.trace ∨ loopEv e := by
  induction combos with
  | nil => exact fun st step e he => Or.inl he
  | cons combo rest ih =>
    intro st step
    simp only [runCombos]
    have hst2 : ∀ e ∈ (addEv (_set_user_params st names combo) Ev.computeEv).trace,
        e ∈ st.trace ∨ loopEv e := by
      intro e he
      rcases List.mem_append.mp he with h' | h'
      · obtain ⟨ext, ht, -, hl, -⟩ := set_user_params_TraceExt st names combo
        rw [ht] at h'
        rcases List.mem_append.mp h' with h'' | h''
        · exact Or.inl h''
        · exact Or.inr (hl e h'')
      · rw [List.mem_singleton] at h'
        subst h'
        exact Or.inr ⟨fun hc => Ev.noConfusion hc, fun hc => Ev.noConfusion hc⟩
    cases hr : (runObjects orc fmt template outDir snapB snapO (names.zip combo) objs
        (addEv (_set_user_params st names combo) Ev.computeEv) step).2.2 with
    | none =>
      simp only [hr]
      intro e he
      rcases ih _ _ e he with h' | h'
      · rcases runObjects_trace orc fmt template outDir snapB snapO (names.zip combo) objs
          _ step e h' with h'' | h''
        · exact hst2 e h''
        · exact Or.inr h''
      · exact Or.inr h'
    | some f =>
      simp only [hr]
      intro e he
      rcases runObjects_trace orc fmt template outDir snapB snapO (names.zip combo) objs
        _ step e he with h'' | h''
      · exact hst2 e h''
      · exact Or.inr h''

theorem runCombos_progress (orc : Oracle) (fmt : ExportFormat)
    (template outDir : String) (snapB snapO : List (String × Bool))
    (objs : List ExpObj) (names : List String) (combos : List (List PyVal)) :
    ∀ (st : RunState) (step : Nat),
      progressSteps st.trace = List.range' 1 step →
      progressSteps
          (runCombos orc fmt template outDir snapB snapO objs names combos st step).1.trace
        = List.range' 1
            (runCombos orc fmt template outDir snapB snapO objs names combos st step).2.1
      ∧ (runCombos orc fmt template outDir snapB snapO objs names combos st step).2.1
          ≤ step + combos.length * objs.length := by
  induction combos with
  | nil =>
    intro st step h
    exact ⟨h, by simp [runCombos]⟩
  | cons combo rest ih =>
    intro st step h
    simp only [runCombos]
    have hps2 : progressSteps
        (addEv (_set_user_params st names combo) Ev.computeEv).trace
        = List.range' 1 step := by
      obtain ⟨ext, ht, hp, -, -⟩ := set_user_params_TraceExt st names combo
      show progressSteps ((_set_user_params st names combo).trace ++ [Ev.computeEv]) = _
      rw [progressSteps_append, ht, progressSteps_append, hp, h]
      simp [progressSteps]
    obtain ⟨he1, hb1⟩ := runObjects_progress orc fmt template outDir snapB snapO
      (names.zip combo) objs _ step hps2
    have hmul : (rest.length + 1) * objs.length
        = rest.length * objs.length + objs.length := Nat.succ_mul _ _
    cases hr : (runObjects orc fmt template outDir snapB snapO (names.zip combo) objs
        (addEv (_set_user_params st names combo) Ev.computeEv) step).2.2 with
    | none =>
      simp only [hr]
      obtain ⟨he2, hb2⟩ := ih _ _ he1
      refine ⟨he2, ?_⟩
      simp only [List.length_cons]
      omega
    | some f =>
      simp only [hr]
      refine ⟨he1, ?_⟩
      simp only [List.length_cons]
      omega

theorem runCombos_cancel (orc : Oracle) (fmt : ExportFormat)
    (template outDir : String) (snapB snapO : List (String × Bool))
    (objs : List ExpObj) (names : List String) (combos : List (List PyVal)) :
    ∀ (st : RunState) (step : Nat),
      noCancelThrough orc step → exportsCancelFree orc st.trace →
      exportsCancelFree orc
          (runCombos orc fmt template outDir snapB snapO objs names combos st step).1.trace
      ∧ ((runCombos orc fmt template outDir snapB snapO objs names combos st step).2.2
            = none →
          noCancelThrough orc
            (runCombos orc fmt template outDir snapB snapO objs names combos st step).2.1) := by
  induction combos with
  | nil =>
    intro st step hP hQ
    exact ⟨hQ, fun _ => hP⟩
  | cons combo rest ih =>
    intro st step hP hQ
    simp only [runCombos]
    have hQ2 : exportsCancelFree orc
        (addEv (_set_user_params st names combo) Ev.computeEv).trace := by
      intro s p hp
      rcases List.mem_append.mp hp with h' | h'
      · obtain ⟨ext, ht, -, -, hx⟩ := set_user_params_TraceExt st names combo
        rw [ht] at h'
        rcases List.mem_append.mp h' with h'' | h''
        · exact hQ s p h''
        · exact absurd h'' (hx s p)
      · rw [List.mem_singleton] at h'
        exact Ev.noConfusion h'
    obtain ⟨hQr, hPr⟩ := runObjects_cancel orc fmt template outDir snapB snapO
      (names.zip combo) objs _ step hP hQ2
    cases hr : (runObjects orc fmt template outDir snapB snapO (names.zip combo) objs
        (addEv (_set_user_params st names combo) Ev.computeEv) step).2.2 with
    | none =>
      simp only [hr]
      exact ih _ _ (hPr hr) hQr
    | some f =>
      simp only [hr]
      exact ⟨hQr, fun hcon => Option.noConfusion hcon⟩

/-! ## The driver claims -/

/-- C1: for every terminating export run — success, cancellation, export-call
failure, or the `TypeError` exception — the `finally` restoration block runs
exactly once: the trace ends with exactly one progress-release, one
parameter-restoration call, one visibility restoration and one final
recompute, none of which occur earlier; every parameter's expression (in
particular every mutated one) is back to its pre-run value, and every body
and occurrence visibility flag matches the pre-run snapshot. -/
theorem C1_restoration_runs_once (d0 : Design) (objects : List ExpObj)
    (paramLists : List (String × List PyVal)) (fmt : ExportFormat)
    (template outDir : String) (orc : Oracle) :
    (∃ tr, (executeNotify d0 objects paramLists fmt template outDir orc).1.trace
          = tr ++ [Ev.progressEndEv, Ev.restoreParamsEv, Ev.restoreVisEv, Ev.computeEv]
        ∧ Ev.progressEndEv ∉ tr ∧ Ev.restoreParamsEv ∉ tr)
    ∧ (∀ n, paramExprOf
          (executeNotify d0 objects paramLists fmt template outDir orc).1.design.params n
        = paramExprOf d0.params n)
    ∧ (∀ t, alookup
          (executeNotify d0 objects paramLists fmt template outDir orc).1.design.bodies t
        = alookup d0.bodies t)
    ∧ (∀ t, alookup
          (executeNotify d0 objects paramLists fmt template outDir orc).1.design.occs t
        = alookup d0.occs t) := by
  have hInv0 : LInv d0 (⟨d0, [], []⟩ : RunState) := by
    refine ⟨rfl, fun n _ => rfl, ?_, List.nodup_nil, rfl, rfl⟩
    intro n e h
    exact Option.noConfusion h
  obtain ⟨h1, h2, h3, h4, h5, h6⟩ := runCombos_state d0 orc fmt template outDir
    d0.bodies d0.occs objects (paramLists.map Prod.fst)
    (allCombos (paramLists.map Prod.snd)) ⟨d0, [], []⟩ 0 hInv0
  refine ⟨?_, ?_, ?_, ?_⟩
  · refine ⟨(runCombos orc fmt template outDir d0.bodies d0.occs objects
      (paramLists.map Prod.fst) (allCombos (paramLists.map Prod.snd))
      (⟨d0, [], []⟩ : RunState) 0).1.trace, ?_, ?_, ?_⟩
    · show ((((runCombos orc fmt template outDir d0.bodies d0.occs objects
          (paramLists.map Prod.fst) (allCombos (paramLists.map Prod.snd))
          (⟨d0, [], []⟩ : RunState) 0).1.trace
          ++ [Ev.progressEndEv]) ++ [Ev.restoreParamsEv]) ++ [Ev.restoreVisEv])
          ++ [Ev.computeEv] = _
      simp [List.append_assoc]
    · intro hmem
      rcases runCombos_trace orc fmt template outDir d0.bodies d0.occs objects
        (paramLists.map Prod.fst) (allCombos (paramLists.map Prod.snd))
        ⟨d0, [], []⟩ 0 Ev.progressEndEv hmem with h' | h'
      · exact absurd h' (List.not_mem_nil _)
      · exact h'.1 rfl
    · intro hmem
      rcases runCombos_trace orc fmt template outDir d0.bodies d0.occs objects
        (paramLists.map Prod.fst) (allCombos (paramLists.map Prod.snd))
        ⟨d0, [], []⟩ 0 Ev.restoreParamsEv hmem with h' | h'
      · exact absurd h' (List.not_mem_nil _)
      · exact h'.2 rfl
  · intro n
    show paramExprOf
        ((runCombos orc fmt template outDir d0.bodies d0.occs objects
          (paramLists.map Prod.fst) (allCombos (paramLists.map Prod.snd))
          (⟨d0, [], []⟩ : RunState) 0).1.cache.foldl
          (fun ps ce =>
            if (itemByName ps ce.1).isSome then setParamExpr ps ce.1 ce.2 else ps)
          (runCombos orc fmt template outDir d0.bodies d0.occs objects
            (paramLists.map Prod.fst) (allCombos (paramLists.map Prod.snd))
            (⟨d0, [], []⟩ : RunState) 0).1.design.params) n
      = paramExprOf d0.params n
    rw [restore_fold_spec _ _ h4 n]
    cases hc : alookup (runCombos orc fmt template outDir d0.bodies d0.occs objects
        (paramLists.map Prod.fst) (allCombos (paramLists.map Prod.snd))
        (⟨d0, [], []⟩ : RunState) 0).1.cache n with
    | some e =>
      simp only [hc]
      have hd0 := h3 n e hc
      have hs := itemByName_isSome_of_names_eq _ _ n h1
      have hd0s : (itemByName d0.params n).isSome = true := by
        rw [paramExprOf] at hd0
        cases hi : itemByName d0.params n with
        | none =>
          rw [hi] at hd0
          exact Option.noConfusion hd0
        | some u => rfl
      rw [hd0s] at hs
      cases hi : itemByName (runCombos orc fmt template outDir d0.bodies d0.occs objects
          (paramLists.map Prod.fst) (allCombos (paramLists.map Prod.snd))
          (⟨d0, [], []⟩ : RunState) 0).1.design.params n with
      | none =>
        rw [hi] at hs
        exact absurd hs (by simp)
      | some u =>
        rw [hd0, paramExprOf, hi]
        rfl
    | none =>
      simp only [hc]
      exact h2 n hc
  · intro t
    show alookup
        (restoreVisList
          (runCombos orc fmt template outDir d0.bodies d0.occs objects
            (paramLists.map Prod.fst) (allCombos (paramLists.map Prod.snd))
            (⟨d0, [], []⟩ : RunState) 0).1.design.bodies d0.bodies) t
      = alookup d0.bodies t
    exact alookup_restoreVisList _ _ h5 t
  · intro t
    show alookup
        (restoreVisList
          (runCombos orc fmt template outDir d0.bodies d0.occs objects
            (paramLists.map Prod.fst) (allCombos (paramLists.map Prod.snd))
            (⟨d0, [], []⟩ : RunState) 0).1.design.occs d0.occs) t
      = alookup d0.occs t
    exact alookup_restoreVisList _ _ h6 t

/-- C7: at the end of every run the originals cache has pairwise-distinct
keys (each parameter snapshotted at most once) and maps every parameter it
contains — exactly the parameters that were touched — to that parameter's
pre-run expression, never to a later combination's value; the final restore
therefore writes the true pre-run expression back. -/
theorem C7_originals_cache (d0 : Design) (objects : List ExpObj)
    (paramLists : List (String × List PyVal)) (fmt : ExportFormat)
    (template outDir : String) (orc : Oracle) :
    (((executeNotify d0 objects paramLists fmt template outDir orc).1.cache).map
        Prod.fst).Nodup
    ∧ ∀ n e,
        alookup (executeNotify d0 objects paramLists fmt template outDir orc).1.cache n
          = some e →
        paramExprOf d0.params n = some e := by
  have hInv0 : LInv d0 (⟨d0, [], []⟩ : RunState) := by
    refine ⟨rfl, fun n _ => rfl, ?_, List.nodup_nil, rfl, rfl⟩
    intro n e h
    exact Option.noConfusion h
  obtain ⟨h1, h2, h3, h4, h5, h6⟩ := runCombos_state d0 orc fmt template outDir
    d0.bodies d0.occs objects (paramLists.map Prod.fst)
    (allCombos (paramLists.map Prod.snd)) ⟨d0, [], []⟩ 0 hInv0
  exact ⟨h4, h3⟩

/-- C7 witness: the theorem applied to a concrete cancelled run — the cached
entry for parameter `w` is its pre-run expression `'a'`. -/
theorem C7_witness : paramExprOf [⟨"w", "'a'", "", 1⟩] "w" = some "'a'" :=
  (C7_originals_cache ⟨[⟨"w", "'a'", "", 1⟩], [("B1", true)], [("O1", false)]⟩
      [⟨ObjKind.body, "B1", none, "Obj"⟩] [("w", [PyVal.str "x", PyVal.str "y"])]
      ExportFormat.STL "{name}_{w}.stl" "out" ⟨fun s => s == 2, fun _ => true⟩).2
    "w" "'a'" (by decide)

/-- C8: cancellation is observed only at progress updates — the progress
steps reported in a run are exactly `1, 2, …, k` for some `k` bounded by
|combinations| × |objects| (one update per (combination, object) pair) — and
every export call made at step `s` happened with the cancel flag observed
unset at step `s` and at every earlier step: once a cancellation is observed,
no export call is made at that step or any later one. -/
theorem C8_cancellation_polling (d0 : Design) (objects : List ExpObj)
    (paramLists : List (String × List PyVal)) (fmt : ExportFormat)
    (template outDir : String) (orc : Oracle) :
    (∀ s p, Ev.exportEv s p ∈
        (executeNotify d0 objects paramLists fmt template outDir orc).1.trace →
        ∀ t, 1 ≤ t → t ≤ s → orc.cancelAt t = false)
    ∧ progressSteps (executeNotify d0 objects paramLists fmt template outDir orc).1.trace
        = List.range' 1
            (progressSteps
              (executeNotify d0 objects paramLists fmt template outDir orc).1.trace).length
    ∧ (progressSteps
          (executeNotify d0 objects paramLists fmt template outDir orc).1.trace).length
        ≤ (allCombos (paramLists.map Prod.snd)).length * objects.length := by
  have hP0 : noCancelThrough orc 0 := by
    intro t h1 h2
    exact absurd (h1.trans h2) (by omega)
  have hQ0 : exportsCancelFree orc (⟨d0, [], []⟩ : RunState).trace := by
    intro s p hp
    exact absurd hp (List.not_mem_nil _)
  obtain ⟨hQr, hPr⟩ := runCombos_cancel orc fmt template outDir d0.bodies d0.occs
    objects (paramLists.map Prod.fst) (allCombos (paramLists.map Prod.snd))
    ⟨d0, [], []⟩ 0 hP0 hQ0
  obtain ⟨hpr, hbnd⟩ := runCombos_progress orc fmt template outDir d0.bodies d0.occs
    objects (paramLists.map Prod.fst) (allCombos (paramLists.map Prod.snd))
    ⟨d0, [], []⟩ 0 rfl
  have htr : (executeNotify d0 objects paramLists fmt template outDir orc).1.trace
      = (runCombos orc fmt template outDir d0.bodies d0.occs objects
          (paramLists.map Prod.fst) (allCombos (paramLists.map Prod.snd))
          (⟨d0, [], []⟩ : RunState) 0).1.trace
        ++ [Ev.progressEndEv, Ev.restoreParamsEv, Ev.restoreVisEv, Ev.computeEv] := by
    show ((((runCombos orc fmt template outDir d0.bodies d0.occs objects
        (paramLists.map Prod.fst) (allCombos (paramLists.map Prod.snd))
        (⟨d0, [], []⟩ : RunState) 0).1.trace
        ++ [Ev.progressEndEv]) ++ [Ev.restoreParamsEv]) ++ [Ev.restoreVisEv])
        ++ [Ev.computeEv] = _
    simp [List.append_assoc]
  have hps : progressSteps
      (executeNotify d0 objects paramLists fmt template outDir orc).1.trace
      = List.range' 1 (runCombos orc fmt template outDir d0.bodies d0.occs objects
          (paramLists.map Prod.fst) (allCombos (paramLists.map Prod.snd))
          (⟨d0, [], []⟩ : RunState) 0).2.1 := by
    rw [htr, progressSteps_append, hpr]
    simp [progressSteps]
  refine ⟨?_, ?_, ?_⟩
  · intro s p hmem t h1 h2
    rw [htr] at hmem
    rcases List.mem_append.mp hmem with h' | h'
    · exact hQr s p h' t h1 h2
    · simp only [List.mem_cons, List.mem_singleton, List.not_mem_nil, or_false] at h'
      rcases h' with h' | h' | h' | h'
      · exact Ev.noConfusion h'
      · exact Ev.noConfusion h'
      · exact Ev.noConfusion h'
      · exact Ev.noConfusion h'
  · rw [hps, List.length_range']
  · rw [hps, List.length_range']
    simpa using hbnd

/-- C8 witness: the theorem applied to a concrete run that exports once and
is cancelled at the second progress step — the export at step 1 implies the
cancel flag was observed unset at step 1. -/
theorem C8_witness :
    (⟨fun s => s == 2, fun _ => true⟩ : Oracle).cancelAt 1 = false :=
  (C8_cancellation_polling ⟨[⟨"w", "'a'", "", 1⟩], [("B1", true)], [("O1", false)]⟩
      [⟨ObjKind.body, "B1", none, "Obj"⟩] [("w", [PyVal.str "x", PyVal.str "y"])]
      ExportFormat.STL "{name}_{w}.stl" "out" ⟨fun s => s == 2, fun _ => true⟩).1
    1 "out/Obj_x.stl" (by decide) 1 (by decide) (by decide)

end BatchExport
